import Mathlib

/-!
Verification development for the interview-copilot repository.

Strings manipulated by the program (recognizer texts, generated answers,
prompts) are embedded as lists of characters (`Str`), with Python's
`str.strip()` embedded as `strip` (drop whitespace on both ends).
The generation retry/fallback machinery (`generate_with_fallback` in
`interview_engine.py`), the gemini response text extraction
(`extract_text`), the streaming aggregation, the session ledger
(`InterviewEngine`), and the vosk capture loop (`_listen_stream_vosk` in
`speech_listener.py`) are embedded as executable Lean functions, each
translated clause by clause from the Python source.
-/

/-- Characters of a Python string. -/
abbrev Str := List Char

/-- Whitespace test used by Python's `str.strip()`. -/
def isSpc (c : Char) : Bool := c.isWhitespace

/-- Python `s.lstrip()`: drop leading whitespace. -/
def lstrip (s : Str) : Str := s.dropWhile isSpc

/-- Python `s.rstrip()`: drop trailing whitespace. -/
def rstrip (s : Str) : Str := (s.reverse.dropWhile isSpc).reverse

/-- Python `s.strip()`: drop whitespace on both ends. -/
def strip (s : Str) : Str := rstrip (lstrip s)

theorem lstrip_cons_space {c : Char} (s : Str) (h : isSpc c = true) :
    lstrip (c :: s) = lstrip s := by
  simp [lstrip, List.dropWhile_cons, h]

theorem lstrip_cons_keep {c : Char} (s : Str) (h : isSpc c = false) :
    lstrip (c :: s) = c :: s := by
  simp [lstrip, List.dropWhile_cons, h]

theorem lstrip_idem (s : Str) : lstrip (lstrip s) = lstrip s := by
  induction s with
  | nil => rfl
  | cons c s ih =>
    by_cases h : isSpc c = true
    · rw [lstrip_cons_space s h]; exact ih
    · have h' : isSpc c = false := eq_false_of_ne_true h
      rw [lstrip_cons_keep s h', lstrip_cons_keep s h']

theorem head_lstrip (s : Str) {c : Char} {t : Str} (h : lstrip s = c :: t) :
    isSpc c = false := by
  induction s with
  | nil => simp [lstrip] at h
  | cons a s ih =>
    by_cases ha : isSpc a = true
    · rw [lstrip_cons_space s ha] at h; exact ih h
    · have ha' : isSpc a = false := eq_false_of_ne_true ha
      rw [lstrip_cons_keep s ha'] at h
      cases h; assumption

theorem rstrip_idem (s : Str) : rstrip (rstrip s) = rstrip s := by
  show (((s.reverse.dropWhile isSpc).reverse).reverse.dropWhile isSpc).reverse
      = (s.reverse.dropWhile isSpc).reverse
  rw [List.reverse_reverse]
  exact congrArg List.reverse (lstrip_idem s.reverse)

/-- Any list is its rstrip followed by trailing whitespace. -/
theorem rstrip_decomp (s : Str) : ∃ w, s = rstrip s ++ w := by
  refine ⟨(s.reverse.takeWhile isSpc).reverse, ?_⟩
  have h := List.takeWhile_append_dropWhile (p := isSpc) (l := s.reverse)
  calc s = s.reverse.reverse := (List.reverse_reverse s).symm
    _ = (s.reverse.takeWhile isSpc ++ s.reverse.dropWhile isSpc).reverse := by rw [h]
    _ = rstrip s ++ (s.reverse.takeWhile isSpc).reverse := by
        rw [List.reverse_append]; rfl

theorem lstrip_rstrip_of_fixed (s : Str) (h : lstrip s = s) :
    lstrip (rstrip s) = rstrip s := by
  cases hr : rstrip s with
  | nil => rfl
  | cons c r =>
    obtain ⟨w, hw⟩ := rstrip_decomp s
    rw [hr] at hw
    have hc : isSpc c = false := by
      apply head_lstrip s (t := r ++ w)
      rw [h, hw, List.cons_append]
    exact lstrip_cons_keep r hc

theorem lstrip_strip (s : Str) : lstrip (strip s) = strip s :=
  lstrip_rstrip_of_fixed (lstrip s) (lstrip_idem s)

theorem rstrip_strip (s : Str) : rstrip (strip s) = strip s := rstrip_idem (lstrip s)

theorem strip_cons_space {c : Char} (s : Str) (h : isSpc c = true) :
    strip (c :: s) = strip s := by
  show rstrip (lstrip (c :: s)) = rstrip (lstrip s)
  rw [lstrip_cons_space s h]

theorem strip_of_fixed (s : Str) (hl : lstrip s = s) (hr : rstrip s = s) :
    strip s = s := by
  show rstrip (lstrip s) = s
  rw [hl, hr]

theorem rstrip_eq_self_of_rev (s : Str) (h : lstrip s.reverse = s.reverse) :
    rstrip s = s := by
  show (s.reverse.dropWhile isSpc).reverse = s
  show (lstrip s.reverse).reverse = s
  rw [h, List.reverse_reverse]

theorem lstrip_rev_of_rstrip (s : Str) (h : rstrip s = s) :
    lstrip s.reverse = s.reverse := by
  have : (lstrip s.reverse).reverse = s := h
  calc lstrip s.reverse = ((lstrip s.reverse).reverse).reverse := by
        rw [List.reverse_reverse]
    _ = s.reverse := by rw [this]

/-- Concatenation of a list of strings (Python `"".join` / `+=` accumulation). -/
def scat : List Str → Str
  | [] => []
  | c :: cs => c ++ scat cs

/-- Join strings with a single space between them (Python `" ".join`). -/
def sjoin : List Str → Str
  | [] => []
  | [t] => t
  | t :: t2 :: ts => t ++ ' ' :: sjoin (t2 :: ts)

/-- Shape of the vosk accumulation buffer `final_text`: every segment is
appended as `" " + text`, so the raw buffer is the concatenation of
space-prefixed segments. -/
def preJoin : List Str → Str
  | [] => []
  | t :: ts => ' ' :: t ++ preJoin ts

/-- A string with no leading/trailing whitespace and at least one character. -/
def trimmed (t : Str) : Prop := lstrip t = t ∧ rstrip t = t ∧ t ≠ []

theorem trimmed_strip (s : Str) (h : strip s ≠ []) : trimmed (strip s) :=
  ⟨lstrip_strip s, rstrip_strip s, h⟩

theorem preJoin_append (ts us : List Str) :
    preJoin (ts ++ us) = preJoin ts ++ preJoin us := by
  induction ts with
  | nil => rfl
  | cons t ts ih => simp [preJoin, ih]

theorem preJoin_cons_sjoin (t : Str) (ts : List Str) :
    preJoin (t :: ts) = ' ' :: sjoin (t :: ts) := by
  induction ts generalizing t with
  | nil => simp [preJoin, sjoin]
  | cons u ts ih =>
    show ' ' :: t ++ preJoin (u :: ts) = ' ' :: sjoin (t :: u :: ts)
    rw [ih u]
    simp [sjoin]

theorem head_of_trimmed {t : Str} (h : trimmed t) :
    ∃ c r, t = c :: r ∧ isSpc c = false := by
  obtain ⟨hl, _, hne⟩ := h
  cases ht : t with
  | nil => exact absurd ht hne
  | cons c r =>
    refine ⟨c, r, rfl, ?_⟩
    apply head_lstrip t
    rw [hl, ht]

theorem lstrip_sjoin {t : Str} (ts : List Str) (h : trimmed t) :
    lstrip (sjoin (t :: ts)) = sjoin (t :: ts) := by
  obtain ⟨c, r, hct, hc⟩ := head_of_trimmed h
  cases ts with
  | nil => show lstrip t = t; exact h.1
  | cons u ts =>
    show lstrip (t ++ ' ' :: sjoin (u :: ts)) = t ++ ' ' :: sjoin (u :: ts)
    rw [hct, List.cons_append]
    exact lstrip_cons_keep _ hc

theorem rstrip_append_keep (x y : Str) (hy : rstrip y = y) (hne : y ≠ []) :
    rstrip (x ++ y) = x ++ y := by
  apply rstrip_eq_self_of_rev
  rw [List.reverse_append]
  have hrev : lstrip y.reverse = y.reverse := lstrip_rev_of_rstrip y hy
  cases hyr : y.reverse with
  | nil => exact absurd (by simpa using congrArg List.reverse hyr) hne
  | cons d w =>
    have hd : isSpc d = false := by
      apply head_lstrip y.reverse
      rw [hrev, hyr]
    rw [List.cons_append]
    exact lstrip_cons_keep _ hd

theorem sjoin_ne_nil {t : Str} (ts : List Str) (h : t ≠ []) :
    sjoin (t :: ts) ≠ [] := by
  cases ts with
  | nil => exact h
  | cons u ts =>
    show t ++ ' ' :: sjoin (u :: ts) ≠ []
    simp

theorem rstrip_sjoin {t : Str} (ts : List Str) (ht : trimmed t)
    (h : ∀ u ∈ ts, trimmed u) :
    rstrip (sjoin (t :: ts)) = sjoin (t :: ts) := by
  induction ts generalizing t with
  | nil => exact ht.2.1
  | cons u ts ih =>
    show rstrip (t ++ ' ' :: sjoin (u :: ts)) = t ++ ' ' :: sjoin (u :: ts)
    have hu : trimmed u := h u (List.mem_cons_self u ts)
    have hrec : rstrip (sjoin (u :: ts)) = sjoin (u :: ts) :=
      ih hu (fun v hv => h v (List.mem_cons_of_mem u hv))
    have hne : sjoin (u :: ts) ≠ [] := sjoin_ne_nil ts hu.2.2
    have := rstrip_append_keep (t ++ [' ']) (sjoin (u :: ts)) hrec hne
    simpa using this

theorem strip_sjoin (ts : List Str) (h : ∀ u ∈ ts, trimmed u) :
    strip (sjoin ts) = sjoin ts := by
  cases ts with
  | nil => rfl
  | cons t ts =>
    have ht : trimmed t := h t (List.mem_cons_self t ts)
    apply strip_of_fixed
    · exact lstrip_sjoin ts ht
    · exact rstrip_sjoin ts ht (fun v hv => h v (List.mem_cons_of_mem t hv))

/-- Master lemma: stripping the raw vosk accumulation buffer yields the
single-space join of the accumulated segments. -/
theorem strip_preJoin (ts : List Str) (h : ∀ u ∈ ts, trimmed u) :
    strip (preJoin ts) = sjoin ts := by
  cases ts with
  | nil => rfl
  | cons t ts =>
    rw [preJoin_cons_sjoin, strip_cons_space _ (by simp [isSpc])]
    exact strip_sjoin (t :: ts) h

/-!
Embedding of `generate_with_fallback` (interview_engine.py, gemini branch).

One call to the primary model (`PRIMARY_MODEL`) on a given attempt number is
abstracted as an `Outcome`: the provider either returns a response (`success`,
carrying the eventual text), raises a `ServerError` (`transientFail`), or
raises a `ClientError` carrying a message (`terminalFail`).  The single
fallback-model call (`FALLBACK_MODEL`, same gemini client and credential)
is one `Outcome`.  The loop `for attempt in range(1, max_retries + 1)` is
embedded with an explicit remaining-attempts counter; `time.sleep(0.6 *
attempt)` is recorded in a sleep trace instead of sleeping.
-/

/-- Result of one provider call. -/
inductive Outcome
  | success (t : Str)
  | transientFail
  | terminalFail (e : Str)
deriving DecidableEq

/-- Errors surfaced by `generate_with_fallback`: an `AIServiceError` built by
`_format_gemini_client_error`, or an uncaught raw `ServerError` (the
fallback call catches only `ClientError`). -/
inductive GenErr
  | clientFormatted (msg : Str)
  | serverRaw
deriving DecidableEq

/-- Lowercasing used by `_format_gemini_client_error` (`message.lower()`). -/
def lowerStr (s : Str) : Str := s.map Char.toLower

/-- Boolean string-prefix test. -/
def isPrefixB : Str → Str → Bool
  | [], _ => true
  | _ :: _, [] => false
  | a :: as, b :: bs => a == b && isPrefixB as bs

/-- Python's substring membership `needle in hay`. -/
def containsSub : Str → Str → Bool
  | needle, [] => needle.isEmpty
  | needle, c :: rest => isPrefixB needle (c :: rest) || containsSub needle rest

/-- Embedding of `_format_gemini_client_error`: map a `ClientError` message to
the user-actionable `AIServiceError` message by substring probes. -/
def fmtGemini (e : Str) : Str :=
  let l := lowerStr e
  if containsSub ("reported as leaked".toList) l then
    ("Gemini API key is blocked (reported as leaked). Generate a new API key and update GEMINI_API_KEY in .env.").toList
  else if containsSub ("permission_denied".toList) l || containsSub ("403".toList) l then
    ("Gemini API permission denied. Verify API key validity and project billing/access.").toList
  else if containsSub ("invalid".toList) l && containsSub ("api".toList) l && containsSub ("key".toList) l then
    ("Gemini API key is invalid. Replace GEMINI_API_KEY in .env.").toList
  else e

/-- Backoff base delay: `time.sleep(0.6 * attempt)`. -/
def backoffBase : ℚ := 6 / 10

/-- How the primary retry loop ended. -/
inductive LoopExit
  | success (t : Str)
  | fellThrough
  | raisedErr (e : Str)
deriving DecidableEq

/-- The primary retry loop of `generate_with_fallback`, started at attempt
number `k` with `rem` attempts remaining (the loop runs attempts
`1 .. max_retries`, so the top-level call is `attemptsFrom primary 1 R`).
Returns the sleep trace, the number of primary calls made, and the exit. -/
def attemptsFrom (primary : Nat → Outcome) : Nat → Nat → List ℚ × Nat × LoopExit
  | _, 0 => ([], 0, LoopExit.fellThrough)
  | k, rem + 1 =>
    match primary k with
    | Outcome.success t => ([], 1, LoopExit.success t)
    | Outcome.terminalFail e => ([], 1, LoopExit.raisedErr (fmtGemini e))
    | Outcome.transientFail =>
      if rem = 0 then ([], 1, LoopExit.fellThrough)
      else
        let r := attemptsFrom primary (k + 1) rem
        (backoffBase * k :: r.1, r.2.1 + 1, r.2.2)

/-- Observable trace of one `generate_with_fallback` call. -/
structure GWFResult where
  result : Except GenErr Str
  primaryCalls : Nat
  fallbackCalls : Nat
  sleeps : List ℚ

/-- Embedding of `generate_with_fallback(prompt, "gemini", max_retries)`:
try the primary model up to `R` times (sleeping `0.6 * attempt` after a
transient failure except on the last attempt), re-raise a terminal
`ClientError` immediately via `_format_gemini_client_error`, and after `R`
transient failures call the fallback model once (same client; only
`ClientError` is caught there, a `ServerError` propagates raw). -/
def generate_with_fallback (primary : Nat → Outcome) (fb : Outcome) (R : Nat) :
    GWFResult :=
  match attemptsFrom primary 1 R with
  | (s, c, LoopExit.success t) => ⟨Except.ok t, c, 0, s⟩
  | (s, c, LoopExit.raisedErr e) => ⟨Except.error (GenErr.clientFormatted e), c, 0, s⟩
  | (s, c, LoopExit.fellThrough) =>
    match fb with
    | Outcome.success t => ⟨Except.ok t, c, 1, s⟩
    | Outcome.terminalFail e =>
        ⟨Except.error (GenErr.clientFormatted (fmtGemini e)), c, 1, s⟩
    | Outcome.transientFail => ⟨Except.error GenErr.serverRaw, c, 1, s⟩

/-- Default `max_retries` of `generate_with_fallback`. -/
def defaultMaxRetries : Nat := 2

theorem attemptsFrom_all_transient (primary : Nat → Outcome) :
    ∀ rem k, 1 ≤ rem → (∀ j, k ≤ j → j < k + rem → primary j = Outcome.transientFail) →
    attemptsFrom primary k rem =
      ((List.range' k (rem - 1)).map (fun j => backoffBase * j), rem,
        LoopExit.fellThrough) := by
  intro rem
  induction rem with
  | zero => intro k h; omega
  | succ rem ih =>
    intro k _ hall
    have hk : primary k = Outcome.transientFail := hall k (Nat.le_refl k) (by omega)
    show attemptsFrom primary k (rem + 1) = _
    rw [attemptsFrom, hk]
    cases rem with
    | zero => simp
    | succ rem' =>
      have hne : rem' + 1 ≠ 0 := by omega
      simp only [hne, if_false]
      rw [ih (k + 1) (by omega) (fun j hj1 hj2 => hall j (by omega) (by omega))]
      simp [List.range'_succ]

theorem attemptsFrom_transient_then_success (primary : Nat → Outcome) (t : Str) :
    ∀ m k, (∀ j, k ≤ j → j < k + m → primary j = Outcome.transientFail) →
    primary (k + m) = Outcome.success t →
    attemptsFrom primary k (m + 1) =
      ((List.range' k m).map (fun j => backoffBase * j), m + 1,
        LoopExit.success t) := by
  intro m
  induction m with
  | zero =>
    intro k _ hsucc
    show attemptsFrom primary k 1 = _
    rw [attemptsFrom]
    simp at hsucc
    rw [hsucc]
    simp
  | succ m ih =>
    intro k hall hsucc
    have hk : primary k = Outcome.transientFail := hall k (Nat.le_refl k) (by omega)
    show attemptsFrom primary k (m + 1 + 1) = _
    rw [attemptsFrom, hk]
    have hne : m + 1 ≠ 0 := by omega
    simp only [hne, if_false]
    rw [ih (k + 1) (fun j hj1 hj2 => hall j (by omega) (by omega))
        (by rw [show k + 1 + m = k + (m + 1) by omega]; exact hsucc)]
    simp [List.range'_succ]

/-- C1: if the primary fails transiently on every one of its `R` allowed
attempts, the generator sleeps `0.6 * k` after transient attempt `k` for
`k < R`, makes exactly `R` primary attempts, and then invokes the fallback
exactly once (returning its result when it succeeds); if the primary fails
transiently exactly `R - 1` times and then succeeds on attempt `R`, the
primary's result is returned and the fallback is never invoked. -/
theorem C1_primary_retries_then_fallback
    (R : Nat) (p1 p2 : Nat → Outcome) (fb : Outcome) (t u : Str)
    (hR : 1 ≤ R)
    (h1 : ∀ k, 1 ≤ k → k ≤ R → p1 k = Outcome.transientFail)
    (hfb : fb = Outcome.success u)
    (h2 : ∀ k, 1 ≤ k → k < R → p2 k = Outcome.transientFail)
    (h3 : p2 R = Outcome.success t) :
    ((generate_with_fallback p1 fb R).primaryCalls = R ∧
     (generate_with_fallback p1 fb R).fallbackCalls = 1 ∧
     (generate_with_fallback p1 fb R).result = Except.ok u ∧
     (generate_with_fallback p1 fb R).sleeps =
       (List.range' 1 (R - 1)).map (fun k => backoffBase * k)) ∧
    ((generate_with_fallback p2 fb R).result = Except.ok t ∧
     (generate_with_fallback p2 fb R).fallbackCalls = 0 ∧
     (generate_with_fallback p2 fb R).primaryCalls = R ∧
     (generate_with_fallback p2 fb R).sleeps =
       (List.range' 1 (R - 1)).map (fun k => backoffBase * k)) := by
  have hA := attemptsFrom_all_transient p1 R 1 hR
      (fun j hj1 hj2 => h1 j hj1 (by omega))
  have hB := attemptsFrom_transient_then_success p2 t (R - 1) 1
      (fun j hj1 hj2 => h2 j hj1 (by omega))
      (by rw [show 1 + (R - 1) = R by omega]; exact h3)
  rw [show R - 1 + 1 = R by omega] at hB
  constructor
  · rw [generate_with_fallback, hA, hfb]
    exact ⟨rfl, rfl, rfl, rfl⟩
  · rw [generate_with_fallback, hB]
    exact ⟨rfl, rfl, rfl, rfl⟩

/-- Witness for C1 at `R = 2` with a concrete always-transient primary and a
concrete primary that succeeds on attempt 2. -/
theorem C1_primary_retries_then_fallback_witness :
    ((generate_with_fallback (fun _ => Outcome.transientFail)
        (Outcome.success ("fb").toList) 2).primaryCalls = 2 ∧
     (generate_with_fallback (fun _ => Outcome.transientFail)
        (Outcome.success ("fb").toList) 2).fallbackCalls = 1 ∧
     (generate_with_fallback (fun _ => Outcome.transientFail)
        (Outcome.success ("fb").toList) 2).result = Except.ok (("fb").toList) ∧
     (generate_with_fallback (fun _ => Outcome.transientFail)
        (Outcome.success ("fb").toList) 2).sleeps =
       (List.range' 1 (2 - 1)).map (fun k => backoffBase * k)) ∧
    ((generate_with_fallback
        (fun k => if k = 2 then Outcome.success (("ok").toList) else Outcome.transientFail)
        (Outcome.success ("fb").toList) 2).result = Except.ok (("ok").toList) ∧
     (generate_with_fallback
        (fun k => if k = 2 then Outcome.success (("ok").toList) else Outcome.transientFail)
        (Outcome.success ("fb").toList) 2).fallbackCalls = 0 ∧
     (generate_with_fallback
        (fun k => if k = 2 then Outcome.success (("ok").toList) else Outcome.transientFail)
        (Outcome.success ("fb").toList) 2).primaryCalls = 2 ∧
     (generate_with_fallback
        (fun k => if k = 2 then Outcome.success (("ok").toList) else Outcome.transientFail)
        (Outcome.success ("fb").toList) 2).sleeps =
       (List.range' 1 (2 - 1)).map (fun k => backoffBase * k)) :=
  C1_primary_retries_then_fallback 2
    (fun _ => Outcome.transientFail)
    (fun k => if k = 2 then Outcome.success (("ok").toList) else Outcome.transientFail)
    (Outcome.success ("fb").toList) (("ok").toList) (("fb").toList)
    (by omega)
    (fun k _ _ => rfl)
    rfl
    (fun k hk1 hk2 => by
      have hk : k = 1 := by omega
      subst hk; rfl)
    rfl

/-- C2 counterexample: with a primary that raises a terminal
(configuration-class) `ClientError` on its first attempt and a working
fallback, `generate_with_fallback` surfaces the formatted terminal error and
never invokes the fallback, contradicting the claim that the fallback is
attempted and its result returned. -/
theorem C2_counterexample :
    (generate_with_fallback (fun _ => Outcome.terminalFail (("boom").toList))
        (Outcome.success (("fallback").toList)) 2).fallbackCalls = 0 ∧
    (generate_with_fallback (fun _ => Outcome.terminalFail (("boom").toList))
        (Outcome.success (("fallback").toList)) 2).result =
      Except.error (GenErr.clientFormatted (("boom").toList)) ∧
    (Except.error (GenErr.clientFormatted (("boom").toList)) : Except GenErr Str) ≠
      Except.ok (("fallback").toList) := by
  refine ⟨rfl, rfl, fun h => Except.noConfusion h⟩

/-- C2 amended: in this code the fallback is the same gemini client (same
credential) invoked with a different model, and a terminal `ClientError` on
the primary aborts at once: the formatted configuration error is re-raised
after exactly one primary attempt, with no sleep and no fallback call. -/
theorem C2_terminal_error_skips_fallback
    (primary : Nat → Outcome) (fb : Outcome) (R : Nat) (e : Str)
    (hR : 1 ≤ R) (h1 : primary 1 = Outcome.terminalFail e) :
    (generate_with_fallback primary fb R).result =
      Except.error (GenErr.clientFormatted (fmtGemini e)) ∧
    (generate_with_fallback primary fb R).fallbackCalls = 0 ∧
    (generate_with_fallback primary fb R).primaryCalls = 1 ∧
    (generate_with_fallback primary fb R).sleeps = [] := by
  obtain ⟨rem, rfl⟩ : ∃ rem, R = rem + 1 := ⟨R - 1, by omega⟩
  have hA : attemptsFrom primary 1 (rem + 1) =
      ([], 1, LoopExit.raisedErr (fmtGemini e)) := by
    rw [attemptsFrom, h1]
  rw [generate_with_fallback, hA]
  exact ⟨rfl, rfl, rfl, rfl⟩

/-- Witness for the amended C2 at a concrete terminal error. -/
theorem C2_terminal_error_skips_fallback_witness :
    (generate_with_fallback (fun _ => Outcome.terminalFail (("x").toList))
        Outcome.transientFail 1).result =
      Except.error (GenErr.clientFormatted (fmtGemini (("x").toList))) ∧
    (generate_with_fallback (fun _ => Outcome.terminalFail (("x").toList))
        Outcome.transientFail 1).fallbackCalls = 0 ∧
    (generate_with_fallback (fun _ => Outcome.terminalFail (("x").toList))
        Outcome.transientFail 1).primaryCalls = 1 ∧
    (generate_with_fallback (fun _ => Outcome.terminalFail (("x").toList))
        Outcome.transientFail 1).sleeps = [] :=
  C2_terminal_error_skips_fallback (fun _ => Outcome.terminalFail (("x").toList))
    Outcome.transientFail 1 (("x").toList) (by omega) rfl

/-!
Embedding of the `InterviewEngine` session ledger (interview_engine.py).

A `Turn` is the dict appended to `self.history`; `ask_question` appends a
turn without an answer and increments `self.turn`; the end of
`stream_answer` (after the chunk loop) writes the stripped accumulated
answer into the last turn if the history is non-empty, otherwise appends a
fresh turn and increments the counter.  Network calls and prompt templating
are abstracted: the generated texts arrive as parameters, timestamps as
naturals. -/

/-- One entry of `self.history`. -/
structure Turn where
  turn : Nat
  question : Str
  answer : Option Str
  timestamp : Nat
deriving DecidableEq

/-- State of an `InterviewEngine`. -/
structure Engine where
  resume_context : Str
  interview_type : Str
  ai_service : Str
  history : List Turn
  turn : Nat
deriving DecidableEq

/-- `InterviewEngine.__init__`. -/
def mkEngine (rc it svc : Str) : Engine := ⟨rc, it, svc, [], 0⟩

/-- Ledger effect of `ask_question` once the question text `q` has been
generated: append a turn at index `self.turn` and increment the counter. -/
def askQuestion (e : Engine) (q : Str) (ts : Nat) : Engine :=
  { e with
    history := e.history ++ [⟨e.turn, q, none, ts⟩],
    turn := e.turn + 1 }

/-- `self.history[-1]["answer"] = answer`. -/
def setLastAnswer : List Turn → Str → List Turn
  | [], _ => []
  | [t], a => [{ t with answer := some a }]
  | t :: t2 :: ts, a => t :: setLastAnswer (t2 :: ts) a

/-- Ledger effect at the end of `stream_answer`: strip the accumulated
answer `raw`; if the history is non-empty overwrite the last turn's answer,
otherwise append a fresh turn at index `self.turn` and increment the
counter. -/
def ledgerUpdate (e : Engine) (q : Str) (raw : Str) (ts : Nat) : Engine :=
  if e.history.isEmpty then
    { e with
      history := e.history ++ [⟨e.turn, q, some (strip raw), ts⟩],
      turn := e.turn + 1 }
  else { e with history := setLastAnswer e.history (strip raw) }

theorem setLastAnswer_append (hs : List Turn) (t : Turn) (a : Str) :
    setLastAnswer (hs ++ [t]) a = hs ++ [{ t with answer := some a }] := by
  induction hs with
  | nil => rfl
  | cons h hs ih =>
    have hne : hs ++ [t] ≠ [] := by simp
    cases hhs : hs ++ [t] with
    | nil => exact absurd hhs hne
    | cons x xs =>
      calc setLastAnswer ((h :: hs) ++ [t]) a
          = setLastAnswer (h :: x :: xs) a := by rw [List.cons_append, hhs]
        _ = h :: setLastAnswer (x :: xs) a := rfl
        _ = h :: setLastAnswer (hs ++ [t]) a := by rw [hhs]
        _ = h :: (hs ++ [{ t with answer := some a }]) := by rw [ih]
        _ = (h :: hs) ++ [{ t with answer := some a }] := by rw [List.cons_append]

/-- C4: the answer-generation ledger update writes the stripped answer into
the last turn when the ledger is non-empty (leaving the counter alone), and
when the ledger is empty appends a fresh turn carrying the question, the
answer, the timestamp and the current turn index, then increments the
counter; and after `ask_question` followed by answer generation the ledger
holds exactly one turn with both question and answer set, at index 0. -/
theorem C4_answer_written_to_ledger
    (e1 e2 : Engine) (q raw : Str) (ts : Nat) (hs : List Turn) (t : Turn)
    (rc it svc q2 raw2 : Str) (ts1 ts2 : Nat)
    (h1 : e1.history = hs ++ [t])
    (h2 : e2.history = []) :
    ((ledgerUpdate e1 q raw ts).history =
        hs ++ [{ t with answer := some (strip raw) }] ∧
      (ledgerUpdate e1 q raw ts).turn = e1.turn) ∧
    ((ledgerUpdate e2 q raw ts).history =
        [⟨e2.turn, q, some (strip raw), ts⟩] ∧
      (ledgerUpdate e2 q raw ts).turn = e2.turn + 1) ∧
    ((ledgerUpdate (askQuestion (mkEngine rc it svc) q2 ts1) q2 raw2 ts2).history =
        [⟨0, q2, some (strip raw2), ts1⟩] ∧
      (ledgerUpdate (askQuestion (mkEngine rc it svc) q2 ts1) q2 raw2 ts2).turn = 1) := by
  refine ⟨⟨?_, ?_⟩, ⟨?_, ?_⟩, ⟨?_, ?_⟩⟩
  · simp [ledgerUpdate, h1, setLastAnswer_append]
  · simp [ledgerUpdate, h1]
  · simp [ledgerUpdate, h2]
  · simp [ledgerUpdate, h2]
  · simp [ledgerUpdate, askQuestion, mkEngine, setLastAnswer]
  · simp [ledgerUpdate, askQuestion, mkEngine]

/-- Witness for C4 at concrete engines and texts. -/
theorem C4_answer_written_to_ledger_witness :
    ((ledgerUpdate ⟨[], [], [], [⟨0, ('q' :: []), none, 7⟩], 1⟩ ('q' :: [])
        (' ' :: 'a' :: []) 9).history =
        [⟨0, ('q' :: []), some ('a' :: []), 7⟩] ∧
      (ledgerUpdate ⟨[], [], [], [⟨0, ('q' :: []), none, 7⟩], 1⟩ ('q' :: [])
        (' ' :: 'a' :: []) 9).turn = 1) ∧
    ((ledgerUpdate (mkEngine [] [] []) ('q' :: []) (' ' :: 'a' :: []) 9).history =
        [⟨0, ('q' :: []), some ('a' :: []), 9⟩] ∧
      (ledgerUpdate (mkEngine [] [] []) ('q' :: []) (' ' :: 'a' :: []) 9).turn = 0 + 1) ∧
    ((ledgerUpdate (askQuestion (mkEngine [] [] []) ('q' :: []) 7) ('q' :: [])
        (' ' :: 'a' :: []) 9).history =
        [⟨0, ('q' :: []), some (strip (' ' :: 'a' :: [])), 7⟩] ∧
      (ledgerUpdate (askQuestion (mkEngine [] [] []) ('q' :: []) 7) ('q' :: [])
        (' ' :: 'a' :: []) 9).turn = 1) := by
  have h := C4_answer_written_to_ledger
      ⟨[], [], [], [⟨0, ('q' :: []), none, 7⟩], 1⟩ (mkEngine [] [] [])
      ('q' :: []) (' ' :: 'a' :: []) 9 [] ⟨0, ('q' :: []), none, 7⟩
      [] [] [] ('q' :: []) (' ' :: 'a' :: []) 7 9 rfl rfl
  have hstrip : strip (' ' :: 'a' :: []) = ('a' :: []) := by decide
  refine ⟨⟨?_, h.1.2⟩, ⟨?_, h.2.1.2⟩, ⟨h.2.2.1, h.2.2.2⟩⟩
  · have := h.1.1
    rw [hstrip] at this
    exact this
  · have := h.2.1.1
    rw [hstrip] at this
    exact this

/-!
Generator semantics of `stream_answer` (C10): the Python generator yields
each chunk as it arrives, accumulating `full_answer`; the ledger mutation
sits after the `for` loop, so it runs only when the caller drives the
generator past the last chunk (the `next()` call that raises
`StopIteration`).  A caller that abandons the generator, or a provider
stream that raises mid-iteration, never reaches the post-loop code. -/

/-- Suspended state of one `stream_answer` generator. -/
structure SAGen where
  pending : List Str
  tailErr : Option Str
  acc : Str
  eng : Engine
  q : Str
  ts : Nat
  done : Bool
deriving DecidableEq

/-- What one `next()` call on the generator produces. -/
inductive SAEvent
  | yielded (c : Str)
  | stopped
  | errored (e : Str)
deriving DecidableEq

/-- One `next()` call: yield the next chunk (appending it to
`full_answer`), or raise the provider's mid-stream error, or fall out of
the loop, run the ledger update, and stop. -/
def saNext (g : SAGen) : SAEvent × SAGen :=
  if g.done then (SAEvent.stopped, g) else
  match g.pending with
  | c :: rest => (SAEvent.yielded c, { g with pending := rest, acc := g.acc ++ c })
  | [] =>
    match g.tailErr with
    | some e => (SAEvent.errored e, { g with done := true })
    | none => (SAEvent.stopped,
        { g with eng := ledgerUpdate g.eng g.q g.acc g.ts, done := true })

/-- Drive the generator through `k` `next()` calls. -/
def saRun (g : SAGen) : Nat → SAGen
  | 0 => g
  | k + 1 => saRun (saNext g).2 k

/-- Fresh `stream_answer` generator over a provider stream that will deliver
`chunks` and then either end normally (`terr = none`) or raise. -/
def saInit (e : Engine) (q : Str) (ts : Nat) (chunks : List Str)
    (terr : Option Str) : SAGen :=
  ⟨chunks, terr, [], e, q, ts, false⟩

theorem saRun_add (g : SAGen) (a b : Nat) :
    saRun g (a + b) = saRun (saRun g a) b := by
  induction a generalizing g with
  | zero => rw [Nat.zero_add]; rfl
  | succ a ih =>
    show saRun g (a + 1 + b) = saRun (saRun (saNext g).2 a) b
    rw [show a + 1 + b = (a + b) + 1 by omega]
    show saRun (saNext g).2 (a + b) = _
    exact ih (saNext g).2

theorem saRun_chunks (e : Engine) (q : Str) (ts : Nat) (terr : Option Str) :
    ∀ (k : Nat) (chunks : List Str) (acc : Str), k ≤ chunks.length →
    saRun ⟨chunks, terr, acc, e, q, ts, false⟩ k =
      ⟨chunks.drop k, terr, acc ++ scat (chunks.take k), e, q, ts, false⟩ := by
  intro k
  induction k with
  | zero => intro chunks acc _; simp [saRun, scat]
  | succ k ih =>
    intro chunks acc hk
    cases chunks with
    | nil => simp at hk
    | cons c rest =>
      show saRun (saNext ⟨c :: rest, terr, acc, e, q, ts, false⟩).2 k = _
      have hstep : (saNext ⟨c :: rest, terr, acc, e, q, ts, false⟩).2 =
          ⟨rest, terr, acc ++ c, e, q, ts, false⟩ := rfl
      rw [hstep, ih rest (acc ++ c) (by simpa using hk)]
      simp [scat]

theorem saRun_done (g : SAGen) (hg : g.done = true) : ∀ j, saRun g j = g := by
  intro j
  induction j with
  | zero => rfl
  | succ j ih =>
    show saRun (saNext g).2 j = g
    have : (saNext g).2 = g := by simp [saNext, hg]
    rw [this]
    exact ih

theorem saRun_err_eng (m : Str) :
    ∀ (j : Nat) (g : SAGen), g.tailErr = some m →
    (saRun g j).eng = g.eng ∧ (saRun g j).tailErr = some m := by
  intro j
  induction j with
  | zero => intro g hg; exact ⟨rfl, hg⟩
  | succ j ih =>
    intro g hg
    show (saRun (saNext g).2 j).eng = g.eng ∧ _
    have heng : (saNext g).2.eng = g.eng ∧ (saNext g).2.tailErr = some m := by
      by_cases hd : g.done = true
      · simp [saNext, hd, hg]
      · have hd' : g.done = false := eq_false_of_ne_true hd
        cases hp : g.pending with
        | nil => simp [saNext, hd', hp, hg]
        | cons c rest => simp [saNext, hd', hp, hg]
    obtain ⟨h1, h2⟩ := heng
    have := ih (saNext g).2 h2
    rw [h1] at this
    exact this

/-- C10: the `stream_answer` generator mutates the session ledger only when
the caller drives it past the final chunk: after any number of pulls up to
the chunk count the engine is untouched; if the provider stream raises
after its chunks, the engine is untouched no matter how far the caller
drives the generator; and driving a normally-terminating generator past
the last chunk performs exactly the ledger update on the full concatenated
answer. -/
theorem C10_stream_mutates_ledger_only_on_completion
    (e : Engine) (q : Str) (ts : Nat) (chunks : List Str) :
    (∀ k, k ≤ chunks.length →
      (saRun (saInit e q ts chunks none) k).eng = e) ∧
    (∀ (m : Str) (k : Nat),
      (saRun (saInit e q ts chunks (some m)) k).eng = e) ∧
    (∀ k, chunks.length < k →
      (saRun (saInit e q ts chunks none) k).eng =
        ledgerUpdate e q (scat chunks) ts) := by
  refine ⟨?_, ?_, ?_⟩
  · intro k hk
    rw [saInit, saRun_chunks e q ts none k chunks [] hk]
  · intro m k
    by_cases hk : k ≤ chunks.length
    · rw [saInit, saRun_chunks e q ts (some m) k chunks [] hk]
    · have hk' : chunks.length ≤ k := by omega
      obtain ⟨j, rfl⟩ := Nat.le.dest hk'
      rw [saInit, saRun_add, saRun_chunks e q ts (some m) chunks.length chunks []
          (Nat.le_refl _)]
      rw [List.drop_length, List.take_length]
      exact (saRun_err_eng m j _ rfl).1
  · intro k hk
    have hk' : chunks.length + 1 ≤ k := by omega
    obtain ⟨j, rfl⟩ := Nat.le.dest hk'
    rw [saInit, show chunks.length + 1 + j = chunks.length + (1 + j) by omega,
        saRun_add, saRun_chunks e q ts none chunks.length chunks [] (Nat.le_refl _)]
    rw [List.drop_length, List.take_length]
    have hstep : saRun (⟨[], none, [] ++ scat chunks, e, q, ts, false⟩ : SAGen) (1 + j) =
        saRun (⟨[], none, [] ++ scat chunks,
          ledgerUpdate e q ([] ++ scat chunks) ts, q, ts, true⟩ : SAGen) j := by
      rw [show 1 + j = j + 1 by omega]
      rfl
    rw [hstep, saRun_done _ rfl j]
    simp

/-- Witness for C10 on a concrete two-chunk stream. -/
theorem C10_stream_mutates_ledger_only_on_completion_witness :
    ((saRun (saInit (mkEngine [] [] []) ('q' :: []) 3
        (('a' :: []) :: ('b' :: []) :: []) none) 2).eng = mkEngine [] [] []) ∧
    ((saRun (saInit (mkEngine [] [] []) ('q' :: []) 3
        (('a' :: []) :: ('b' :: []) :: []) (some ('e' :: []))) 9).eng =
      mkEngine [] [] []) ∧
    ((saRun (saInit (mkEngine [] [] []) ('q' :: []) 3
        (('a' :: []) :: ('b' :: []) :: []) none) 3).eng =
      ledgerUpdate (mkEngine [] [] []) ('q' :: [])
        (scat (('a' :: []) :: ('b' :: []) :: [])) 3) := by
  have h := C10_stream_mutates_ledger_only_on_completion (mkEngine [] [] [])
      ('q' :: []) 3 (('a' :: []) :: ('b' :: []) :: [])
  exact ⟨h.1 2 (by decide), h.2.1 ('e' :: []) 9, h.2.2 3 (by decide)⟩

/-!
Session operations for the turn-index invariant (C9).  Each operation's
ledger effect is the one embedded above: `ask_question` appends at index
`self.turn` and increments; a completed `stream_answer` either overwrites
the last turn's answer (no new index) or appends at `self.turn` and
increments; `suggest_follow_up` never touches the ledger. -/

/-- One session operation, with the generated texts as data. -/
inductive SOp
  | ask (q : Str) (ts : Nat)
  | sAnswer (q : Str) (chunks : List Str) (ts : Nat)
  | followUp
deriving DecidableEq

/-- Ledger effect of one operation. -/
def applyOp (e : Engine) : SOp → Engine
  | SOp.ask q ts => askQuestion e q ts
  | SOp.sAnswer q chunks ts => ledgerUpdate e q (scat chunks) ts
  | SOp.followUp => e

/-- Ledger effect of a whole operation sequence. -/
def applyOps (e : Engine) (ops : List SOp) : Engine := ops.foldl applyOp e

theorem mapTurn_setLastAnswer (l : List Turn) (a : Str) :
    (setLastAnswer l a).map Turn.turn = l.map Turn.turn := by
  induction l with
  | nil => rfl
  | cons t l ih =>
    cases l with
    | nil => rfl
    | cons t2 ts =>
      show Turn.turn t :: (setLastAnswer (t2 :: ts) a).map Turn.turn = _
      rw [ih]
      rfl

/-- Ledger well-formedness: indices are exactly `0, 1, …, n-1` and the
counter equals the ledger length. -/
def TurnInv (e : Engine) : Prop :=
  e.history.map Turn.turn = List.range e.history.length ∧
  e.turn = e.history.length


theorem length_setLastAnswer (l : List Turn) (a : Str) :
    (setLastAnswer l a).length = l.length := by
  have := congrArg List.length (mapTurn_setLastAnswer l a)
  simpa using this

theorem ledgerUpdate_of_empty (e : Engine) (q raw : Str) (ts : Nat)
    (h : e.history = []) :
    ledgerUpdate e q raw ts =
      { e with
        history := [(⟨e.turn, q, some (strip raw), ts⟩ : Turn)],
        turn := e.turn + 1 } := by
  simp [ledgerUpdate, h]

theorem ledgerUpdate_of_ne (e : Engine) (q raw : Str) (ts : Nat)
    (h : e.history ≠ []) :
    ledgerUpdate e q raw ts =
      { e with history := setLastAnswer e.history (strip raw) } := by
  have hne : e.history.isEmpty = false := by
    cases hh : e.history with
    | nil => exact absurd hh h
    | cons a l => rfl
  simp [ledgerUpdate, hne]

theorem turnInv_applyOp (e : Engine) (op : SOp) (h : TurnInv e) :
    TurnInv (applyOp e op) := by
  obtain ⟨h1, h2⟩ := h
  cases op with
  | ask q ts =>
    refine ⟨?_, ?_⟩
    · show (e.history ++ [(⟨e.turn, q, none, ts⟩ : Turn)]).map Turn.turn =
        List.range (e.history ++ [(⟨e.turn, q, none, ts⟩ : Turn)]).length
      rw [List.map_append, h1, List.length_append]
      simp [h2, List.range_succ]
    · show e.turn + 1 = (e.history ++ [(⟨e.turn, q, none, ts⟩ : Turn)]).length
      simp [h2]
  | sAnswer q chunks ts =>
    show TurnInv (ledgerUpdate e q (scat chunks) ts)
    by_cases hnil : e.history = []
    · rw [ledgerUpdate_of_empty e q (scat chunks) ts hnil]
      have hturn : e.turn = 0 := by rw [h2, hnil]; rfl
      constructor
      · show [(⟨e.turn, q, some (strip (scat chunks)), ts⟩ : Turn)].map Turn.turn =
          List.range [(⟨e.turn, q, some (strip (scat chunks)), ts⟩ : Turn)].length
        rw [hturn]
        rfl
      · show e.turn + 1 = _
        rw [hturn]
        rfl
    · rw [ledgerUpdate_of_ne e q (scat chunks) ts hnil]
      refine ⟨?_, ?_⟩
      · show (setLastAnswer e.history (strip (scat chunks))).map Turn.turn =
          List.range (setLastAnswer e.history (strip (scat chunks))).length
        rw [mapTurn_setLastAnswer, length_setLastAnswer]
        exact h1
      · show e.turn = (setLastAnswer e.history (strip (scat chunks))).length
        rw [length_setLastAnswer]
        exact h2
  | followUp => exact ⟨h1, h2⟩

theorem turnInv_applyOps (ops : List SOp) :
    ∀ (e : Engine), TurnInv e → TurnInv (applyOps e ops) := by
  induction ops with
  | nil => intro e h; exact h
  | cons op ops ih =>
    intro e h
    show TurnInv (applyOps (applyOp e op) ops)
    exact ih (applyOp e op) (turnInv_applyOp e op h)

/-- C9: from a fresh engine, after any sequence of session operations the
ledger's turn indices are exactly `0, 1, …, n-1` (hence strictly increasing
and never reused, with the counter one past the last index), and any single
operation on any engine state preserves every existing turn's index: the old
index sequence is a prefix of the new one. -/
theorem C9_turn_indices_monotone_never_reused (rc it svc : Str) (ops : List SOp) :
    ((applyOps (mkEngine rc it svc) ops).history.map Turn.turn =
       List.range (applyOps (mkEngine rc it svc) ops).history.length) ∧
    ((applyOps (mkEngine rc it svc) ops).turn =
       (applyOps (mkEngine rc it svc) ops).history.length) ∧
    List.Pairwise (· < ·) ((applyOps (mkEngine rc it svc) ops).history.map Turn.turn) ∧
    (∀ (e : Engine) (op : SOp),
      List.IsPrefix (e.history.map Turn.turn) ((applyOp e op).history.map Turn.turn)) := by
  have hinv : TurnInv (applyOps (mkEngine rc it svc) ops) :=
    turnInv_applyOps ops (mkEngine rc it svc) ⟨rfl, rfl⟩
  refine ⟨hinv.1, hinv.2, ?_, ?_⟩
  · rw [hinv.1]
    exact List.pairwise_lt_range _
  · intro e op
    cases op with
    | ask q ts =>
      show List.IsPrefix (e.history.map Turn.turn)
        ((e.history ++ [(⟨e.turn, q, none, ts⟩ : Turn)]).map Turn.turn)
      rw [List.map_append]
      exact ⟨_, rfl⟩
    | sAnswer q chunks ts =>
      show List.IsPrefix (e.history.map Turn.turn)
        ((ledgerUpdate e q (scat chunks) ts).history.map Turn.turn)
      by_cases hnil : e.history = []
      · rw [hnil]
        exact List.nil_prefix
      · rw [ledgerUpdate_of_ne e q (scat chunks) ts hnil]
        show List.IsPrefix (e.history.map Turn.turn)
          ((setLastAnswer e.history (strip (scat chunks))).map Turn.turn)
        rw [mapTurn_setLastAnswer]
    | followUp => exact List.prefix_refl _

/-!
Embedding of gemini response handling for the streaming/non-streaming
comparison (C5).  `extract_text` probes `response.text` first (a truthy,
i.e. non-empty, string is stripped and returned), then walks
`response.candidates[*].content.parts[*].text` returning the first truthy
part stripped, else raises `ValueError`.  The streaming path in
`stream_with_fallback` yields `chunk.text` untouched for every chunk whose
`text` attribute is truthy. -/

/-- A `part` of a gemini candidate's content. -/
structure GemPart where
  text : Option Str
deriving DecidableEq

/-- A gemini candidate (`content` may be absent/None). -/
structure GemCandidate where
  content : Option (List GemPart)
deriving DecidableEq

/-- A gemini response: the convenience `text` field and the nested
candidate list (absent when the attribute is missing). -/
structure GemResponse where
  text : Option Str
  candidates : Option (List GemCandidate)
deriving DecidableEq

/-- Inner loop of `extract_text`: first truthy part text, stripped. -/
def firstPartText : List GemPart → Option Str
  | [] => none
  | p :: ps =>
    match p.text with
    | some t => if t = [] then firstPartText ps else some (strip t)
    | none => firstPartText ps

/-- Candidate walk of `extract_text`. -/
def candidatesText : List GemCandidate → Option Str
  | [] => none
  | c :: cs =>
    match c.content with
    | some ps =>
      match firstPartText ps with
      | some t => some t
      | none => candidatesText cs
    | none => candidatesText cs

/-- Embedding of `extract_text`: the error case is the `ValueError("No text
content found in Gemini response")`. -/
def extract_text (r : GemResponse) : Except Str Str :=
  match r.text with
  | some t =>
    if t = [] then
      match r.candidates with
      | some cs =>
        match candidatesText cs with
        | some u => Except.ok u
        | none => Except.error (("No text content found in Gemini response").toList)
      | none => Except.error (("No text content found in Gemini response").toList)
    else Except.ok (strip t)
  | none =>
    match r.candidates with
    | some cs =>
      match candidatesText cs with
      | some u => Except.ok u
      | none => Except.error (("No text content found in Gemini response").toList)
    | none => Except.error (("No text content found in Gemini response").toList)

/-- Chunks yielded by the gemini branch of `stream_with_fallback`: every
chunk with a truthy `text` is yielded unchanged. -/
def streamYields (chunks : List (Option Str)) : List Str :=
  chunks.filterMap (fun c =>
    match c with
    | some t => if t = [] then none else some t
    | none => none)

theorem scat_streamYields (chunks : List (Option Str)) :
    scat (streamYields chunks) = scat (chunks.map (fun c => c.getD [])) := by
  induction chunks with
  | nil => rfl
  | cons c cs ih =>
    cases c with
    | none => simpa [streamYields, scat] using ih
    | some t =>
      by_cases ht : t = []
      · subst ht
        simpa [streamYields, scat] using ih
      · simp only [streamYields, List.filterMap_cons] at *
        simp only [ht, if_false]
        simpa [scat] using ih

/-- C5 counterexample: for a provider whose complete text carries a trailing
space and whose stream delivers exactly that text, the blocking path
(`extract_text`) returns the stripped text while the streaming path yields
the raw text, so the two paths are not observationally equivalent. -/
theorem C5_counterexample :
    scat (streamYields [some (('H' :: 'i' :: ' ' :: []))]) =
      ('H' :: 'i' :: ' ' :: []) ∧
    extract_text ⟨some (('H' :: 'i' :: ' ' :: [])), none⟩ =
      Except.ok (('H' :: 'i' :: [])) ∧
    ('H' :: 'i' :: ' ' :: []) ≠ ('H' :: 'i' :: []) := by
  refine ⟨rfl, ?_, by decide⟩
  show extract_text ⟨some (('H' :: 'i' :: ' ' :: [])), none⟩ = _
  have : strip ('H' :: 'i' :: ' ' :: []) = ('H' :: 'i' :: []) := by decide
  simp [extract_text, this]

/-- C5 amended: for a response whose convenience `text` field is the
non-empty complete text `t` and a stream whose chunk texts concatenate to
`t`, the streaming path's concatenation is exactly `t` while the blocking
path returns `strip t`; the two coincide precisely when `t` carries no
surrounding whitespace. -/
theorem C5_stream_vs_blocking
    (r : GemResponse) (chunks : List (Option Str)) (t : Str)
    (h1 : r.text = some t) (h2 : t ≠ [])
    (h3 : scat (chunks.map (fun c => c.getD [])) = t) :
    scat (streamYields chunks) = t ∧
    extract_text r = Except.ok (strip t) ∧
    (strip t = t → scat (streamYields chunks) = t ∧ extract_text r = Except.ok t) := by
  have hs : scat (streamYields chunks) = t := by
    rw [scat_streamYields, h3]
  have hb : extract_text r = Except.ok (strip t) := by
    simp [extract_text, h1, h2]
  exact ⟨hs, hb, fun hst => ⟨hs, by rw [hb, hst]⟩⟩

/-- Witness for the amended C5 on a concrete trimmed text split in two
chunks. -/
theorem C5_stream_vs_blocking_witness :
    scat (streamYields [some ('H' :: []), some ('i' :: [])]) = ('H' :: 'i' :: []) ∧
    extract_text ⟨some ('H' :: 'i' :: []), none⟩ =
      Except.ok (strip ('H' :: 'i' :: [])) ∧
    (strip ('H' :: 'i' :: []) = ('H' :: 'i' :: []) →
      scat (streamYields [some ('H' :: []), some ('i' :: [])]) = ('H' :: 'i' :: []) ∧
      extract_text ⟨some ('H' :: 'i' :: []), none⟩ = Except.ok ('H' :: 'i' :: [])) :=
  C5_stream_vs_blocking ⟨some ('H' :: 'i' :: []), none⟩
    [some ('H' :: []), some ('i' :: [])] ('H' :: 'i' :: [])
    rfl (by decide) rfl

/-!
Credential handling (C6).  `get_gemini_client` / `get_openai_client`
(interview_engine.py) read the API key from the environment and raise an
`AIServiceError` naming the variable before constructing any client when
the key is falsy.  `_listen_stream_azure` (speech_listener.py) constructs
`SpeechConfig`/`SpeechRecognizer` from `AZURE_SPEECH_KEY`/`AZURE_SPEECH_REGION`
directly, with no credential check of its own; the check lives only in the
separate probe `azure_stt_available`, which the capture function does not
call.  Remote-service contact is recorded as an action trace. -/

/-- Environment variables read by the program (None = unset). -/
structure Env where
  gemini : Option String
  openai : Option String
  azureKey : Option String
  azureRegion : Option String

/-- Python truthiness test for an optional env string (`if not api_key`). -/
def strFalsy : Option String → Bool
  | none => true
  | some s => s = ""

/-- Remote-service contact performed by an operation. -/
inductive NetAct
  | connectGemini
  | connectOpenAI
  | connectAzureSpeech
deriving DecidableEq

/-- Embedding of `get_gemini_client`: missing/empty `GEMINI_API_KEY` raises
`AIServiceError` before the client is built; otherwise the (possibly cached)
client construction is the only network-facing step. -/
def get_gemini_client (env : Env) : Except String (List NetAct) :=
  if strFalsy env.gemini then
    Except.error "GEMINI_API_KEY is missing. Add a valid API key in your .env file."
  else Except.ok [NetAct.connectGemini]

/-- Embedding of `get_openai_client`. -/
def get_openai_client (env : Env) : Except String (List NetAct) :=
  if strFalsy env.openai then
    Except.error "OPENAI_API_KEY is missing. Add a valid API key in your .env file."
  else Except.ok [NetAct.connectOpenAI]

/-- Embedding of the prelude of `_listen_stream_azure`: the speech
config/recognizer is constructed unconditionally from whatever
`AZURE_SPEECH_KEY` / `AZURE_SPEECH_REGION` hold; no configuration error is
raised first. -/
def azureListenStart (_env : Env) : Except String (List NetAct) :=
  Except.ok [NetAct.connectAzureSpeech]

/-- Embedding of the probe `azure_stt_available`. -/
def azure_stt_available (env : Env) : Bool × String :=
  if strFalsy env.azureKey then (false, "AZURE_SPEECH_KEY is not set in .env")
  else if strFalsy env.azureRegion then (false, "AZURE_SPEECH_REGION is not set in .env")
  else (true, "")

/-- Substring test on Lean strings (used to state that an error message
names the missing variable). -/
def msgNames (needle msg : String) : Bool := containsSub needle.toList msg.toList

/-- C6 counterexample: with every azure credential unset, the azure capture
path does not fail fast with a configuration error — it proceeds straight
to constructing the remote speech connection. -/
theorem C6_counterexample :
    azureListenStart ⟨some "g", some "o", none, none⟩ =
      Except.ok [NetAct.connectAzureSpeech] ∧
    (∀ msg, azureListenStart ⟨some "g", some "o", none, none⟩ ≠ Except.error msg) := by
  exact ⟨rfl, fun msg h => Except.noConfusion h⟩

/-- C6 amended: the gemini and openai client getters fail fast with a
configuration error naming the missing variable, raised instead of any
client construction or network contact; the azure capture path performs no
such check (it connects regardless), and only the side-channel probe
`azure_stt_available` reports the missing azure variable. -/
theorem C6_credential_fail_fast
    (env : Env)
    (hg : strFalsy env.gemini = true)
    (ho : strFalsy env.openai = true)
    (ha : strFalsy env.azureKey = true) :
    (get_gemini_client env =
        Except.error "GEMINI_API_KEY is missing. Add a valid API key in your .env file." ∧
      msgNames "GEMINI_API_KEY"
        "GEMINI_API_KEY is missing. Add a valid API key in your .env file." = true) ∧
    (get_openai_client env =
        Except.error "OPENAI_API_KEY is missing. Add a valid API key in your .env file." ∧
      msgNames "OPENAI_API_KEY"
        "OPENAI_API_KEY is missing. Add a valid API key in your .env file." = true) ∧
    (azureListenStart env = Except.ok [NetAct.connectAzureSpeech] ∧
      azure_stt_available env = (false, "AZURE_SPEECH_KEY is not set in .env") ∧
      msgNames "AZURE_SPEECH_KEY" "AZURE_SPEECH_KEY is not set in .env" = true) := by
  refine ⟨⟨?_, by decide⟩, ⟨?_, by decide⟩, rfl, ?_, by decide⟩
  · simp [get_gemini_client, hg]
  · simp [get_openai_client, ho]
  · simp [azure_stt_available, ha]

/-- Witness for the amended C6 on the fully-unset environment. -/
theorem C6_credential_fail_fast_witness :
    (get_gemini_client ⟨none, none, none, none⟩ =
        Except.error "GEMINI_API_KEY is missing. Add a valid API key in your .env file." ∧
      msgNames "GEMINI_API_KEY"
        "GEMINI_API_KEY is missing. Add a valid API key in your .env file." = true) ∧
    (get_openai_client ⟨none, none, none, none⟩ =
        Except.error "OPENAI_API_KEY is missing. Add a valid API key in your .env file." ∧
      msgNames "OPENAI_API_KEY"
        "OPENAI_API_KEY is missing. Add a valid API key in your .env file." = true) ∧
    (azureListenStart ⟨none, none, none, none⟩ = Except.ok [NetAct.connectAzureSpeech] ∧
      azure_stt_available ⟨none, none, none, none⟩ =
        (false, "AZURE_SPEECH_KEY is not set in .env") ∧
      msgNames "AZURE_SPEECH_KEY" "AZURE_SPEECH_KEY is not set in .env" = true) :=
  C6_credential_fail_fast ⟨none, none, none, none⟩ rfl rfl rfl

/-!
Embedding of `_listen_stream_vosk` (speech_listener.py).

Each pass of the `while True` loop observes a clock reading (`time.time()`)
and either a recognizer outcome for one dequeued audio block (a final
segment when `AcceptWaveform` returns true, an interim — "partial" in the
source — segment otherwise) or an empty queue after the 0.1 s poll.  The
loop breaks when the elapsed time exceeds `max_duration`, or on an empty
poll when the time since the last text exceeds `silence_timeout`.  Finals
are stripped and, when non-empty, appended to `final_text` as
`" " + text` with the stripped buffer yielded; interim segments are
stripped and, when non-empty, yielded as `(final_text + " " + p).strip()`
without touching the buffer.  After the loop the stripped buffer, if
non-empty, is yielded once more as the terminal hypothesis. -/

/-- One recognizer outcome: a final segment or an interim (revisable)
segment, carrying the raw text. -/
inductive RecOut
  | finalSeg (s : Str)
  | interim (s : Str)
deriving DecidableEq

/-- One loop pass: the clock reading at its top, and the dequeued
recognizer outcome (`none` = queue empty for the whole 0.1 s poll). -/
structure Iter where
  now : ℚ
  ev : Option RecOut
deriving DecidableEq

/-- Mutable loop state: the accumulation buffer and the last-text time. -/
structure LState where
  ftext : Str
  lastT : ℚ
deriving DecidableEq

/-- Result of running the loop: yielded hypotheses, final state, and
whether the loop exited through one of its `break`s (rather than by
exhausting the supplied passes). -/
structure LoopRes where
  outs : List Str
  st : LState
  broke : Bool
deriving DecidableEq

/-- The consumer loop of `_listen_stream_vosk`, over an explicit list of
loop passes. -/
def voskLoop (start silence maxD : ℚ) : LState → List Iter → LoopRes
  | st, [] => ⟨[], st, false⟩
  | st, it :: rest =>
    if maxD < it.now - start then ⟨[], st, true⟩
    else
      match it.ev with
      | none =>
        if silence < it.now - st.lastT then ⟨[], st, true⟩
        else voskLoop start silence maxD st rest
      | some (RecOut.finalSeg s) =>
        if strip s = [] then voskLoop start silence maxD st rest
        else
          let f := st.ftext ++ ' ' :: strip s
          let r := voskLoop start silence maxD ⟨f, it.now⟩ rest
          ⟨strip f :: r.outs, r.st, r.broke⟩
      | some (RecOut.interim s) =>
        if strip s = [] then voskLoop start silence maxD st rest
        else
          let r := voskLoop start silence maxD ⟨st.ftext, it.now⟩ rest
          ⟨strip (st.ftext ++ ' ' :: strip s) :: r.outs, r.st, r.broke⟩

/-- The whole `_listen_stream_vosk` call: run the loop from an empty buffer
(both `start_time` and `last_text_time` are initialized to the current
time), then yield the stripped buffer once more when non-empty. -/
def listenVosk (start silence maxD : ℚ) (its : List Iter) : List Str :=
  let r := voskLoop start silence maxD ⟨[], start⟩ its
  if strip r.st.ftext = [] then r.outs else r.outs ++ [strip r.st.ftext]

/-- The stripped non-empty final segments of a pass list, in arrival
order: exactly the texts the loop persists into the buffer. -/
def finalsOf (its : List Iter) : List Str :=
  its.filterMap (fun it =>
    match it.ev with
    | some (RecOut.finalSeg s) => if strip s = [] then none else some (strip s)
    | _ => none)

/-- A pass that the loop fully processes under the deadline: it carries an
event and its clock reading has not passed `start + maxD`. -/
def liveIter (start maxD : ℚ) (it : Iter) : Prop :=
  it.now - start ≤ maxD ∧ it.ev ≠ none

instance (start maxD : ℚ) (it : Iter) : Decidable (liveIter start maxD it) := by
  unfold liveIter
  infer_instance

theorem finalsOf_cons_final {s : Str} (it : Iter) (its : List Iter)
    (hev : it.ev = some (RecOut.finalSeg s)) (hs : strip s ≠ []) :
    finalsOf (it :: its) = strip s :: finalsOf its := by
  simp [finalsOf, List.filterMap_cons, hev, hs]

theorem finalsOf_cons_skip (it : Iter) (its : List Iter)
    (h : (match it.ev with
      | some (RecOut.finalSeg s) => if strip s = [] then none else some (strip s)
      | _ => none) = (none : Option Str)) :
    finalsOf (it :: its) = finalsOf its := by
  simp [finalsOf, List.filterMap_cons, h]

theorem finalsOf_trimmed (its : List Iter) :
    ∀ u ∈ finalsOf its, trimmed u := by
  intro u hu
  induction its with
  | nil => simp [finalsOf] at hu
  | cons it rest ih =>
    cases hev : it.ev with
    | none =>
      rw [finalsOf_cons_skip it rest (by rw [hev])] at hu
      exact ih hu
    | some r =>
      cases r with
      | interim s =>
        rw [finalsOf_cons_skip it rest (by rw [hev])] at hu
        exact ih hu
      | finalSeg s =>
        by_cases hs : strip s = []
        · rw [finalsOf_cons_skip it rest (by rw [hev]; simp [hs])] at hu
          exact ih hu
        · rw [finalsOf_cons_final it rest hev hs] at hu
          cases hu with
          | head => exact trimmed_strip s hs
          | tail _ h => exact ih h

theorem voskLoop_live (start silence maxD : ℚ) :
    ∀ (its : List Iter) (st : LState), (∀ it ∈ its, liveIter start maxD it) →
    (voskLoop start silence maxD st its).broke = false ∧
    (voskLoop start silence maxD st its).st.ftext = st.ftext ++ preJoin (finalsOf its) := by
  intro its
  induction its with
  | nil => intro st _; exact ⟨rfl, by simp [voskLoop, finalsOf, preJoin]⟩
  | cons it rest ih =>
    intro st hlive
    obtain ⟨htime, hev⟩ := hlive it (List.mem_cons_self it rest)
    have hrest := fun j hj => hlive j (List.mem_cons_of_mem it hj)
    have hnd : ¬ (maxD < it.now - start) := not_lt.mpr htime
    cases hevc : it.ev with
    | none => exact absurd hevc hev
    | some r =>
      cases r with
      | finalSeg s =>
        by_cases hs : strip s = []
        · have : voskLoop start silence maxD st (it :: rest) =
              voskLoop start silence maxD st rest := by
            simp [voskLoop, hnd, hevc, hs]
          rw [this, finalsOf_cons_skip it rest (by rw [hevc]; simp [hs])]
          exact ih st hrest
        · have hstep : voskLoop start silence maxD st (it :: rest) =
              ⟨strip (st.ftext ++ ' ' :: strip s) ::
                 (voskLoop start silence maxD ⟨st.ftext ++ ' ' :: strip s, it.now⟩ rest).outs,
               (voskLoop start silence maxD ⟨st.ftext ++ ' ' :: strip s, it.now⟩ rest).st,
               (voskLoop start silence maxD ⟨st.ftext ++ ' ' :: strip s, it.now⟩ rest).broke⟩ := by
            simp [voskLoop, hnd, hevc, hs]
          obtain ⟨hb, hf⟩ := ih ⟨st.ftext ++ ' ' :: strip s, it.now⟩ hrest
          rw [hstep, finalsOf_cons_final it rest hevc hs]
          refine ⟨hb, ?_⟩
          show (voskLoop start silence maxD ⟨st.ftext ++ ' ' :: strip s, it.now⟩ rest).st.ftext = _
          rw [hf]
          show (st.ftext ++ ' ' :: strip s) ++ preJoin (finalsOf rest) =
            st.ftext ++ preJoin (strip s :: finalsOf rest)
          show _ = st.ftext ++ (' ' :: strip s ++ preJoin (finalsOf rest))
          rw [List.append_assoc]
      | interim s =>
        by_cases hs : strip s = []
        · have : voskLoop start silence maxD st (it :: rest) =
              voskLoop start silence maxD st rest := by
            simp [voskLoop, hnd, hevc, hs]
          rw [this, finalsOf_cons_skip it rest (by rw [hevc])]
          exact ih st hrest
        · have hstep : voskLoop start silence maxD st (it :: rest) =
              ⟨strip (st.ftext ++ ' ' :: strip s) ::
                 (voskLoop start silence maxD ⟨st.ftext, it.now⟩ rest).outs,
               (voskLoop start silence maxD ⟨st.ftext, it.now⟩ rest).st,
               (voskLoop start silence maxD ⟨st.ftext, it.now⟩ rest).broke⟩ := by
            simp [voskLoop, hnd, hevc, hs]
          obtain ⟨hb, hf⟩ := ih ⟨st.ftext, it.now⟩ hrest
          rw [hstep, finalsOf_cons_skip it rest (by rw [hevc])]
          exact ⟨hb, hf⟩

/-- Running joins: the hypotheses yielded while successive final segments
are appended to an accumulation that already holds `ts`. -/
def runJoins (ts : List Str) : List Str → List Str
  | [] => []
  | f :: fs => sjoin (ts ++ [f]) :: runJoins (ts ++ [f]) fs

theorem voskLoop_final_only (start silence maxD : ℚ) :
    ∀ (its : List Iter) (ts : List Str) (τ : ℚ),
    (∀ it ∈ its, liveIter start maxD it ∧
       ∃ s, it.ev = some (RecOut.finalSeg s) ∧ strip s ≠ []) →
    (∀ u ∈ ts, trimmed u) →
    (voskLoop start silence maxD ⟨preJoin ts, τ⟩ its).outs =
      runJoins ts (finalsOf its) := by
  intro its
  induction its with
  | nil => intro ts τ _ _; simp [voskLoop, finalsOf, runJoins]
  | cons it rest ih =>
    intro ts τ hall hts
    obtain ⟨⟨htime, _⟩, s, hev, hs⟩ := hall it (List.mem_cons_self it rest)
    have hrest := fun j hj => hall j (List.mem_cons_of_mem it hj)
    have hnd : ¬ (maxD < it.now - start) := not_lt.mpr htime
    have hstep : voskLoop start silence maxD ⟨preJoin ts, τ⟩ (it :: rest) =
        ⟨strip (preJoin ts ++ ' ' :: strip s) ::
           (voskLoop start silence maxD ⟨preJoin ts ++ ' ' :: strip s, it.now⟩ rest).outs,
         (voskLoop start silence maxD ⟨preJoin ts ++ ' ' :: strip s, it.now⟩ rest).st,
         (voskLoop start silence maxD ⟨preJoin ts ++ ' ' :: strip s, it.now⟩ rest).broke⟩ := by
      simp [voskLoop, hnd, hev, hs]
    have hpre : preJoin ts ++ ' ' :: strip s = preJoin (ts ++ [strip s]) := by
      rw [preJoin_append]
      simp [preJoin]
    have hts' : ∀ u ∈ ts ++ [strip s], trimmed u := by
      intro u hu
      rcases List.mem_append.mp hu with h | h
      · exact hts u h
      · rw [List.mem_singleton.mp h]
        exact trimmed_strip s hs
    rw [hstep, finalsOf_cons_final it rest hev hs, runJoins]
    have houts : (voskLoop start silence maxD
        ⟨preJoin ts ++ ' ' :: strip s, it.now⟩ rest).outs =
        runJoins (ts ++ [strip s]) (finalsOf rest) := by
      rw [hpre]
      exact ih (ts ++ [strip s]) it.now hrest hts'
    rw [houts]
    have hjoin : strip (preJoin ts ++ ' ' :: strip s) = sjoin (ts ++ [strip s]) := by
      rw [hpre]
      exact strip_preJoin (ts ++ [strip s]) hts'
    rw [hjoin]

theorem voskLoop_append (start silence maxD : ℚ) :
    ∀ (l1 l2 : List Iter) (st : LState),
    (voskLoop start silence maxD st l1).broke = false →
    voskLoop start silence maxD st (l1 ++ l2) =
      ⟨(voskLoop start silence maxD st l1).outs ++
         (voskLoop start silence maxD (voskLoop start silence maxD st l1).st l2).outs,
       (voskLoop start silence maxD (voskLoop start silence maxD st l1).st l2).st,
       (voskLoop start silence maxD (voskLoop start silence maxD st l1).st l2).broke⟩ := by
  intro l1
  induction l1 with
  | nil => intro l2 st _; rfl
  | cons it rest ih =>
    intro l2 st hnb
    by_cases hd : maxD < it.now - start
    · exfalso
      have : (voskLoop start silence maxD st (it :: rest)).broke = true := by
        simp [voskLoop, hd]
      rw [this] at hnb
      exact absurd hnb (by simp)
    · cases hev : it.ev with
      | none =>
        by_cases hsil : silence < it.now - st.lastT
        · exfalso
          have : (voskLoop start silence maxD st (it :: rest)).broke = true := by
            simp [voskLoop, hd, hev, hsil]
          rw [this] at hnb
          exact absurd hnb (by simp)
        · have h1 : voskLoop start silence maxD st (it :: rest) =
              voskLoop start silence maxD st rest := by
            simp [voskLoop, hd, hev, hsil]
          have h2 : voskLoop start silence maxD st ((it :: rest) ++ l2) =
              voskLoop start silence maxD st (rest ++ l2) := by
            simp [voskLoop, hd, hev, hsil]
          rw [h1] at hnb ⊢
          rw [h2]
          exact ih l2 st hnb
      | some r =>
        cases r with
        | finalSeg s =>
          by_cases hs : strip s = []
          · have h1 : voskLoop start silence maxD st (it :: rest) =
                voskLoop start silence maxD st rest := by
              simp [voskLoop, hd, hev, hs]
            have h2 : voskLoop start silence maxD st ((it :: rest) ++ l2) =
                voskLoop start silence maxD st (rest ++ l2) := by
              simp [voskLoop, hd, hev, hs]
            rw [h1] at hnb ⊢
            rw [h2]
            exact ih l2 st hnb
          · have h1 : voskLoop start silence maxD st (it :: rest) =
                ⟨strip (st.ftext ++ ' ' :: strip s) ::
                   (voskLoop start silence maxD ⟨st.ftext ++ ' ' :: strip s, it.now⟩ rest).outs,
                 (voskLoop start silence maxD ⟨st.ftext ++ ' ' :: strip s, it.now⟩ rest).st,
                 (voskLoop start silence maxD ⟨st.ftext ++ ' ' :: strip s, it.now⟩ rest).broke⟩ := by
              simp [voskLoop, hd, hev, hs]
            have h2 : voskLoop start silence maxD st ((it :: rest) ++ l2) =
                ⟨strip (st.ftext ++ ' ' :: strip s) ::
                   (voskLoop start silence maxD ⟨st.ftext ++ ' ' :: strip s, it.now⟩ (rest ++ l2)).outs,
                 (voskLoop start silence maxD ⟨st.ftext ++ ' ' :: strip s, it.now⟩ (rest ++ l2)).st,
                 (voskLoop start silence maxD ⟨st.ftext ++ ' ' :: strip s, it.now⟩ (rest ++ l2)).broke⟩ := by
              simp [voskLoop, hd, hev, hs]
            rw [h1] at hnb
            have hnb' : (voskLoop start silence maxD
                ⟨st.ftext ++ ' ' :: strip s, it.now⟩ rest).broke = false := hnb
            rw [h1, h2, ih l2 ⟨st.ftext ++ ' ' :: strip s, it.now⟩ hnb']
            simp
        | interim s =>
          by_cases hs : strip s = []
          · have h1 : voskLoop start silence maxD st (it :: rest) =
                voskLoop start silence maxD st rest := by
              simp [voskLoop, hd, hev, hs]
            have h2 : voskLoop start silence maxD st ((it :: rest) ++ l2) =
                voskLoop start silence maxD st (rest ++ l2) := by
              simp [voskLoop, hd, hev, hs]
            rw [h1] at hnb ⊢
            rw [h2]
            exact ih l2 st hnb
          · have h1 : voskLoop start silence maxD st (it :: rest) =
                ⟨strip (st.ftext ++ ' ' :: strip s) ::
                   (voskLoop start silence maxD ⟨st.ftext, it.now⟩ rest).outs,
                 (voskLoop start silence maxD ⟨st.ftext, it.now⟩ rest).st,
                 (voskLoop start silence maxD ⟨st.ftext, it.now⟩ rest).broke⟩ := by
              simp [voskLoop, hd, hev, hs]
            have h2 : voskLoop start silence maxD st ((it :: rest) ++ l2) =
                ⟨strip (st.ftext ++ ' ' :: strip s) ::
                   (voskLoop start silence maxD ⟨st.ftext, it.now⟩ (rest ++ l2)).outs,
                 (voskLoop start silence maxD ⟨st.ftext, it.now⟩ (rest ++ l2)).st,
                 (voskLoop start silence maxD ⟨st.ftext, it.now⟩ (rest ++ l2)).broke⟩ := by
              simp [voskLoop, hd, hev, hs]
            rw [h1] at hnb
            have hnb' : (voskLoop start silence maxD
                ⟨st.ftext, it.now⟩ rest).broke = false := hnb
            rw [h1, h2, ih l2 ⟨st.ftext, it.now⟩ hnb']
            simp

theorem listenVosk_eq (start silence maxD : ℚ) (its : List Iter) :
    listenVosk start silence maxD its =
      if strip (voskLoop start silence maxD ⟨[], start⟩ its).st.ftext = [] then
        (voskLoop start silence maxD ⟨[], start⟩ its).outs
      else (voskLoop start silence maxD ⟨[], start⟩ its).outs ++
        [strip (voskLoop start silence maxD ⟨[], start⟩ its).st.ftext] := rfl

theorem finalsOf_append (l1 l2 : List Iter) :
    finalsOf (l1 ++ l2) = finalsOf l1 ++ finalsOf l2 := by
  simp [finalsOf, List.filterMap_append]

theorem voskLoop_halt_append (start silence maxD : ℚ) :
    ∀ (l1 l2 : List Iter) (st : LState),
    (voskLoop start silence maxD st l1).broke = true →
    voskLoop start silence maxD st (l1 ++ l2) = voskLoop start silence maxD st l1 := by
  intro l1
  induction l1 with
  | nil => intro l2 st hb; exact absurd hb (by simp [voskLoop])
  | cons it rest ih =>
    intro l2 st hb
    by_cases hd : maxD < it.now - start
    · have h1 : voskLoop start silence maxD st (it :: rest) =
          ⟨[], st, true⟩ := by simp [voskLoop, hd]
      have h2 : voskLoop start silence maxD st ((it :: rest) ++ l2) =
          ⟨[], st, true⟩ := by simp [voskLoop, hd]
      rw [h1, h2]
    · cases hev : it.ev with
      | none =>
        by_cases hsil : silence < it.now - st.lastT
        · have h1 : voskLoop start silence maxD st (it :: rest) =
              ⟨[], st, true⟩ := by simp [voskLoop, hd, hev, hsil]
          have h2 : voskLoop start silence maxD st ((it :: rest) ++ l2) =
              ⟨[], st, true⟩ := by simp [voskLoop, hd, hev, hsil]
          rw [h1, h2]
        · have h1 : voskLoop start silence maxD st (it :: rest) =
              voskLoop start silence maxD st rest := by
            simp [voskLoop, hd, hev, hsil]
          have h2 : voskLoop start silence maxD st ((it :: rest) ++ l2) =
              voskLoop start silence maxD st (rest ++ l2) := by
            simp [voskLoop, hd, hev, hsil]
          rw [h1] at hb ⊢
          rw [h2]
          exact ih l2 st hb
      | some r =>
        cases r with
        | finalSeg s =>
          by_cases hs : strip s = []
          · have h1 : voskLoop start silence maxD st (it :: rest) =
                voskLoop start silence maxD st rest := by
              simp [voskLoop, hd, hev, hs]
            have h2 : voskLoop start silence maxD st ((it :: rest) ++ l2) =
                voskLoop start silence maxD st (rest ++ l2) := by
              simp [voskLoop, hd, hev, hs]
            rw [h1] at hb ⊢
            rw [h2]
            exact ih l2 st hb
          · have h1 : voskLoop start silence maxD st (it :: rest) =
                ⟨strip (st.ftext ++ ' ' :: strip s) ::
                   (voskLoop start silence maxD ⟨st.ftext ++ ' ' :: strip s, it.now⟩ rest).outs,
                 (voskLoop start silence maxD ⟨st.ftext ++ ' ' :: strip s, it.now⟩ rest).st,
                 (voskLoop start silence maxD ⟨st.ftext ++ ' ' :: strip s, it.now⟩ rest).broke⟩ := by
              simp [voskLoop, hd, hev, hs]
            have h2 : voskLoop start silence maxD st ((it :: rest) ++ l2) =
                ⟨strip (st.ftext ++ ' ' :: strip s) ::
                   (voskLoop start silence maxD ⟨st.ftext ++ ' ' :: strip s, it.now⟩ (rest ++ l2)).outs,
                 (voskLoop start silence maxD ⟨st.ftext ++ ' ' :: strip s, it.now⟩ (rest ++ l2)).st,
                 (voskLoop start silence maxD ⟨st.ftext ++ ' ' :: strip s, it.now⟩ (rest ++ l2)).broke⟩ := by
              simp [voskLoop, hd, hev, hs]
            rw [h1] at hb
            have hb' : (voskLoop start silence maxD
                ⟨st.ftext ++ ' ' :: strip s, it.now⟩ rest).broke = true := hb
            rw [h1, h2, ih l2 ⟨st.ftext ++ ' ' :: strip s, it.now⟩ hb']
        | interim s =>
          by_cases hs : strip s = []
          · have h1 : voskLoop start silence maxD st (it :: rest) =
                voskLoop start silence maxD st rest := by
              simp [voskLoop, hd, hev, hs]
            have h2 : voskLoop start silence maxD st ((it :: rest) ++ l2) =
                voskLoop start silence maxD st (rest ++ l2) := by
              simp [voskLoop, hd, hev, hs]
            rw [h1] at hb ⊢
            rw [h2]
            exact ih l2 st hb
          · have h1 : voskLoop start silence maxD st (it :: rest) =
                ⟨strip (st.ftext ++ ' ' :: strip s) ::
                   (voskLoop start silence maxD ⟨st.ftext, it.now⟩ rest).outs,
                 (voskLoop start silence maxD ⟨st.ftext, it.now⟩ rest).st,
                 (voskLoop start silence maxD ⟨st.ftext, it.now⟩ rest).broke⟩ := by
              simp [voskLoop, hd, hev, hs]
            have h2 : voskLoop start silence maxD st ((it :: rest) ++ l2) =
                ⟨strip (st.ftext ++ ' ' :: strip s) ::
                   (voskLoop start silence maxD ⟨st.ftext, it.now⟩ (rest ++ l2)).outs,
                 (voskLoop start silence maxD ⟨st.ftext, it.now⟩ (rest ++ l2)).st,
                 (voskLoop start silence maxD ⟨st.ftext, it.now⟩ (rest ++ l2)).broke⟩ := by
              simp [voskLoop, hd, hev, hs]
            rw [h1] at hb
            have hb' : (voskLoop start silence maxD
                ⟨st.ftext, it.now⟩ rest).broke = true := hb
            rw [h1, h2, ih l2 ⟨st.ftext, it.now⟩ hb']

theorem voskLoop_broke_of_deadline (start silence maxD : ℚ) :
    ∀ (l : List Iter) (st : LState), (∃ it ∈ l, maxD < it.now - start) →
    (voskLoop start silence maxD st l).broke = true := by
  intro l
  induction l with
  | nil => intro st h; simp at h
  | cons it rest ih =>
    intro st h
    by_cases hd : maxD < it.now - start
    · simp [voskLoop, hd]
    · have hrest : ∃ j ∈ rest, maxD < j.now - start := by
        obtain ⟨j, hj, hjd⟩ := h
        cases hj with
        | head => exact absurd hjd hd
        | tail _ hmem => exact ⟨j, hmem, hjd⟩
      cases hev : it.ev with
      | none =>
        by_cases hsil : silence < it.now - st.lastT
        · simp [voskLoop, hd, hev, hsil]
        · have h1 : voskLoop start silence maxD st (it :: rest) =
              voskLoop start silence maxD st rest := by
            simp [voskLoop, hd, hev, hsil]
          rw [h1]
          exact ih st hrest
      | some r =>
        cases r with
        | finalSeg s =>
          by_cases hs : strip s = []
          · have h1 : voskLoop start silence maxD st (it :: rest) =
                voskLoop start silence maxD st rest := by
              simp [voskLoop, hd, hev, hs]
            rw [h1]
            exact ih st hrest
          · have h1 : (voskLoop start silence maxD st (it :: rest)).broke =
                (voskLoop start silence maxD ⟨st.ftext ++ ' ' :: strip s, it.now⟩ rest).broke := by
              simp [voskLoop, hd, hev, hs]
            rw [h1]
            exact ih _ hrest
        | interim s =>
          by_cases hs : strip s = []
          · have h1 : voskLoop start silence maxD st (it :: rest) =
                voskLoop start silence maxD st rest := by
              simp [voskLoop, hd, hev, hs]
            rw [h1]
            exact ih st hrest
          · have h1 : (voskLoop start silence maxD st (it :: rest)).broke =
                (voskLoop start silence maxD ⟨st.ftext, it.now⟩ rest).broke := by
              simp [voskLoop, hd, hev, hs]
            rw [h1]
            exact ih _ hrest

/-- One fully-recognized (final) segment arriving at a given time. -/
def finalPass (x : ℚ × Str) : Iter := ⟨x.1, some (RecOut.finalSeg x.2)⟩

theorem finalsOf_map_finalPass (xs : List (ℚ × Str))
    (h : ∀ x ∈ xs, strip x.2 ≠ []) :
    finalsOf (xs.map finalPass) = xs.map (fun x => strip x.2) := by
  induction xs with
  | nil => rfl
  | cons x xs ih =>
    have hx : strip x.2 ≠ [] := h x (List.mem_cons_self x xs)
    rw [List.map_cons, List.map_cons,
      finalsOf_cons_final (finalPass x) (xs.map finalPass) rfl hx,
      ih (fun y hy => h y (List.mem_cons_of_mem x hy))]

/-- Formula of the C3 claim as written: the segments joined by single
spaces, with the concatenation trimmed of surrounding whitespace. -/
def specJoin (segs : List Str) : Str := strip (sjoin segs)

/-- C3 counterexample: for the final-only segment sequence `["a ", "b"]`
(the first segment carries a trailing space), the code's terminal emitted
hypothesis is `"a b"` — each segment is stripped before being appended —
whereas joining the raw segments with single spaces and trimming the
whole, as the claim states, gives `"a  b"` with an interior double space. -/
theorem C3_counterexample :
    (listenVosk 0 1 30
      [finalPass (0, ('a' :: ' ' :: [])), finalPass (0, ('b' :: []))]).getLast? =
      some ('a' :: ' ' :: 'b' :: []) ∧
    specJoin [('a' :: ' ' :: []), ('b' :: [])] = ('a' :: ' ' :: ' ' :: 'b' :: []) ∧
    ('a' :: ' ' :: 'b' :: []) ≠ ('a' :: ' ' :: ' ' :: 'b' :: []) := by
  have hd : ¬ ((30 : ℚ) < (0 : ℚ) - (0 : ℚ)) := by norm_num
  have hd0 : ¬ ((30 : ℚ) < (0 : ℚ)) := by norm_num
  have hs1 : strip ('a' :: ' ' :: []) = ('a' :: []) := by decide
  have hs2 : strip ('b' :: []) = ('b' :: []) := by decide
  have hs3 : strip (' ' :: 'a' :: []) = ('a' :: []) := by decide
  have hs4 : strip (' ' :: 'a' :: ' ' :: 'b' :: []) = ('a' :: ' ' :: 'b' :: []) := by decide
  refine ⟨?_, by decide, by decide⟩
  rw [listenVosk_eq]
  have hloop : voskLoop 0 1 30 ⟨[], 0⟩
      [finalPass (0, ('a' :: ' ' :: [])), finalPass (0, ('b' :: []))] =
      ⟨[('a' :: []), ('a' :: ' ' :: 'b' :: [])],
       ⟨(' ' :: 'a' :: ' ' :: 'b' :: []), 0⟩, false⟩ := by
    simp [voskLoop, finalPass, hd, hd0, hs1, hs2, hs3, hs4]
  rw [hloop]
  simp [hs4]

/-!
Embedding of the azure capture path for C3 (`_listen_stream_azure`,
speech_listener.py).  Unlike the vosk path, the `recognized` callback
appends each final segment raw: `final_text += " " + evt.result.text`
(guarded only by Python truthiness, i.e. the raw text being non-empty),
and enqueues `final_text.strip()`; the consumer loop dequeues and yields
the queued strings verbatim, with the same top-of-pass deadline check and
empty-poll silence check as the vosk loop; after the loop the stripped
buffer, if non-empty, is yielded once more as the terminal hypothesis.
The asynchronous callback thread is modelled by processing the recognized
events in arrival order (the queue preserves order), with the consumer's
passes carrying either one dequeued string or an empty 0.1 s poll; the
`done` flag set by session-stop/cancel callbacks is not modelled (it can
only end the loop earlier). -/

/-- One pass of the azure consumer loop: the clock reading and the
dequeued recognized string (`none` = queue empty for the whole poll). -/
structure APass where
  now : ℚ
  item : Option Str
deriving DecidableEq

/-- The `recognized` callback applied to a sequence of final segments in
arrival order: skip falsy (empty) texts, append `" " + text` raw, enqueue
the stripped buffer.  Returns the final buffer and the queued strings. -/
def azureFold : Str → List Str → Str × List Str
  | ft, [] => (ft, [])
  | ft, s :: ss =>
    if s = [] then azureFold ft ss
    else
      let r := azureFold (ft ++ ' ' :: s) ss
      (r.1, strip (ft ++ ' ' :: s) :: r.2)

/-- The consumer loop of `_listen_stream_azure`: yield each dequeued
string verbatim; break past the deadline, or on an empty poll past the
silence timeout. -/
def azureLoop (start silence maxD : ℚ) : ℚ → List APass → List Str × Bool
  | _, [] => ([], false)
  | lastT, p :: rest =>
    if maxD < p.now - start then ([], true)
    else
      match p.item with
      | some t =>
        let r := azureLoop start silence maxD p.now rest
        (t :: r.1, r.2)
      | none =>
        if silence < p.now - lastT then ([], true)
        else azureLoop start silence maxD lastT rest

/-- The whole azure capture run for one utterance whose recognized final
segments are `segs`: the consumer loop's yields, then the stripped buffer
once more when non-empty. -/
def azureListen (start silence maxD : ℚ) (segs : List Str)
    (passes : List APass) : List Str :=
  if strip (azureFold [] segs).1 = [] then
    (azureLoop start silence maxD start passes).1
  else
    (azureLoop start silence maxD start passes).1 ++ [strip (azureFold [] segs).1]

/-- The strings enqueued by the azure `recognized` callback: after each raw
append, the stripped buffer so far. -/
def runStrips (ft : Str) : List Str → List Str
  | [] => []
  | s :: ss => strip (ft ++ ' ' :: s) :: runStrips (ft ++ ' ' :: s) ss

theorem spc_of_mem_takeWhile (l : Str) (c : Char)
    (h : c ∈ l.takeWhile isSpc) : isSpc c = true := by
  induction l with
  | nil => simp at h
  | cons a l ih =>
    by_cases ha : isSpc a = true
    · rw [List.takeWhile_cons, if_pos ha] at h
      cases h with
      | head => exact ha
      | tail _ hm => exact ih hm
    · rw [List.takeWhile_cons, if_neg ha] at h
      simp at h

theorem rstrip_nil_all_spc (z : Str) (h : rstrip z = []) :
    ∀ c ∈ z, isSpc c = true := by
  intro c hc
  have h2 : z.reverse.dropWhile isSpc = [] := by
    have h3 : ((z.reverse.dropWhile isSpc).reverse).reverse = ([] : Str) :=
      congrArg List.reverse h
    rwa [List.reverse_reverse] at h3
  have h3 := List.dropWhile_eq_nil_iff.mp h2
  exact h3 c (List.mem_reverse.mpr hc)

theorem all_spc_of_strip_nil (s : Str) (h : strip s = []) :
    ∀ c ∈ s, isSpc c = true := by
  have hls : ∀ c ∈ lstrip s, isSpc c = true := rstrip_nil_all_spc (lstrip s) h
  intro c hc
  rw [← List.takeWhile_append_dropWhile (p := isSpc) (l := s)] at hc
  rcases List.mem_append.mp hc with h' | h'
  · exact spc_of_mem_takeWhile s c h'
  · exact hls c h'

theorem strip_nil_of_all_spc (s : Str) (h : ∀ c ∈ s, isSpc c = true) :
    strip s = [] := by
  have h1 : lstrip s = [] := List.dropWhile_eq_nil_iff.mpr h
  show rstrip (lstrip s) = []
  rw [h1]
  rfl

/-- For raw (possibly untrimmed) segments, stripping the azure buffer
yields exactly the original C3 formula: the segments joined by single
spaces with the concatenation trimmed. -/
theorem strip_preJoin_raw (segs : List Str) :
    strip (preJoin segs) = specJoin segs := by
  cases segs with
  | nil => rfl
  | cons t ts =>
    rw [preJoin_cons_sjoin, strip_cons_space _ (by simp [isSpc])]
    rfl

theorem specJoin_ne_nil_of (a : Str) (rest : List Str) (ha : strip a ≠ []) :
    specJoin (a :: rest) ≠ [] := by
  intro h
  apply ha
  apply strip_nil_of_all_spc
  intro c hc
  have hc2 : c ∈ sjoin (a :: rest) := by
    cases rest with
    | nil => exact hc
    | cons b bs =>
      show c ∈ a ++ ' ' :: sjoin (b :: bs)
      exact List.mem_append_left _ hc
  exact all_spc_of_strip_nil _ h c hc2

theorem azureFold_spec :
    ∀ (segs : List Str) (ft : Str), (∀ s ∈ segs, s ≠ []) →
    azureFold ft segs = (ft ++ preJoin segs, runStrips ft segs) := by
  intro segs
  induction segs with
  | nil => intro ft _; simp [azureFold, preJoin, runStrips]
  | cons s ss ih =>
    intro ft hne
    have hs : s ≠ [] := hne s (List.mem_cons_self s ss)
    rw [azureFold, if_neg hs,
      ih (ft ++ ' ' :: s) (fun x hx => hne x (List.mem_cons_of_mem s hx))]
    show (ft ++ ' ' :: s ++ preJoin ss, strip (ft ++ ' ' :: s) :: runStrips (ft ++ ' ' :: s) ss) = _
    rw [List.append_assoc]
    rfl

theorem azureLoop_live (start silence maxD : ℚ) :
    ∀ (passes : List APass) (lastT : ℚ),
    (∀ p ∈ passes, p.now - start ≤ maxD ∧ p.item ≠ none) →
    (azureLoop start silence maxD lastT passes).1 =
      passes.filterMap APass.item := by
  intro passes
  induction passes with
  | nil => intro lastT _; rfl
  | cons p rest ih =>
    intro lastT hall
    obtain ⟨htime, hitem⟩ := hall p (List.mem_cons_self p rest)
    have hrest := fun j hj => hall j (List.mem_cons_of_mem p hj)
    have hnd : ¬ (maxD < p.now - start) := not_lt.mpr htime
    cases hit : p.item with
    | none => exact absurd hit hitem
    | some t =>
      have hstep : (azureLoop start silence maxD lastT (p :: rest)).1 =
          t :: (azureLoop start silence maxD p.now rest).1 := by
        simp [azureLoop, hnd, hit]
      rw [hstep, List.filterMap_cons, hit, ih p.now hrest]

/-- C3 amended: for every finite final-only sequence of non-whitespace
segments arriving before the deadline, the terminal emitted hypothesis is
emitted exactly once at utterance end after the running intermediate
hypotheses, and equals: on the vosk backend, the single-space join of the
segments' individually stripped texts in arrival order (vosk strips each
final segment before appending it); on the azure backend, the original
formula of the claim — the raw segments joined by single spaces with the
concatenation trimmed of surrounding whitespace (azure appends each
segment raw). -/
theorem C3_terminal_hypothesis_join
    (start silence maxD : ℚ) (xs : List (ℚ × Str))
    (asegs : List Str) (apasses : List APass)
    (hne : xs ≠ [])
    (hlive : ∀ x ∈ xs, x.1 - start ≤ maxD)
    (hseg : ∀ x ∈ xs, strip x.2 ≠ [])
    (hane : asegs ≠ [])
    (haseg : ∀ s ∈ asegs, strip s ≠ [])
    (hpass : ∀ p ∈ apasses, p.now - start ≤ maxD ∧ p.item ≠ none)
    (hdrain : apasses.filterMap APass.item = (azureFold [] asegs).2) :
    (listenVosk start silence maxD (xs.map finalPass) =
      runJoins [] (xs.map (fun x => strip x.2)) ++
        [sjoin (xs.map (fun x => strip x.2))]) ∧
    (azureListen start silence maxD asegs apasses =
      runStrips [] asegs ++ [specJoin asegs]) := by
  constructor
  ·
    have hall : ∀ it ∈ xs.map finalPass, liveIter start maxD it ∧
        ∃ s, it.ev = some (RecOut.finalSeg s) ∧ strip s ≠ [] := by
      intro it hit
      obtain ⟨x, hx, rfl⟩ := List.mem_map.mp hit
      exact ⟨⟨hlive x hx, by simp [finalPass]⟩, x.2, rfl, hseg x hx⟩
    have hlive' : ∀ it ∈ xs.map finalPass, liveIter start maxD it :=
      fun it hit => (hall it hit).1
    have hfs : finalsOf (xs.map finalPass) = xs.map (fun x => strip x.2) :=
      finalsOf_map_finalPass xs hseg
    have htr : ∀ u ∈ xs.map (fun x => strip x.2), trimmed u := by
      rw [← hfs]
      exact finalsOf_trimmed (xs.map finalPass)
    have houts : (voskLoop start silence maxD ⟨[], start⟩ (xs.map finalPass)).outs =
        runJoins [] (xs.map (fun x => strip x.2)) := by
      have h0 := voskLoop_final_only start silence maxD (xs.map finalPass) [] start
          hall (by intro u hu; simp at hu)
      rw [hfs] at h0
      exact h0
    have hft : (voskLoop start silence maxD ⟨[], start⟩ (xs.map finalPass)).st.ftext =
        preJoin (xs.map (fun x => strip x.2)) := by
      have h0 := (voskLoop_live start silence maxD (xs.map finalPass) ⟨[], start⟩ hlive').2
      rw [hfs] at h0
      exact h0
    have hstripJ : strip (preJoin (xs.map (fun x => strip x.2))) =
        sjoin (xs.map (fun x => strip x.2)) :=
      strip_preJoin (xs.map (fun x => strip x.2)) htr
    have hnn : sjoin (xs.map (fun x => strip x.2)) ≠ [] := by
      cases xs with
      | nil => exact absurd rfl hne
      | cons x xs =>
        rw [List.map_cons]
        exact sjoin_ne_nil _ (hseg x (List.mem_cons_self x xs))
    rw [listenVosk_eq, hft, hstripJ, if_neg hnn, houts]
  · have hraw : ∀ s ∈ asegs, s ≠ [] := by
      intro s hs hnil
      apply haseg s hs
      rw [hnil]
      rfl
    have hfold := azureFold_spec asegs [] hraw
    have houts2 : (azureLoop start silence maxD start apasses).1 =
        runStrips [] asegs := by
      rw [azureLoop_live start silence maxD apasses start hpass, hdrain, hfold]
    have hterm : strip (azureFold [] asegs).1 = specJoin asegs := by
      rw [hfold]
      show strip ([] ++ preJoin asegs) = _
      rw [List.nil_append]
      exact strip_preJoin_raw asegs
    have htne : specJoin asegs ≠ [] := by
      cases asegs with
      | nil => exact absurd rfl hane
      | cons a rest =>
        exact specJoin_ne_nil_of a rest (haseg a (List.mem_cons_self a rest))
    rw [azureListen, hterm, if_neg htne, houts2]

/-- Witness for the amended C3 on the single segment `"hi"` for both
backends. -/
theorem C3_terminal_hypothesis_join_witness :
    (listenVosk 0 1 30 ([((0 : ℚ), ('h' :: 'i' :: []))].map finalPass) =
      runJoins [] ([((0 : ℚ), ('h' :: 'i' :: []))].map (fun x => strip x.2)) ++
        [sjoin ([((0 : ℚ), ('h' :: 'i' :: []))].map (fun x => strip x.2))]) ∧
    (azureListen 0 1 30 [('h' :: 'i' :: [])]
        [(⟨0, some ('h' :: 'i' :: [])⟩ : APass)] =
      runStrips [] [('h' :: 'i' :: [])] ++ [specJoin [('h' :: 'i' :: [])]]) :=
  C3_terminal_hypothesis_join 0 1 30 [((0 : ℚ), ('h' :: 'i' :: []))]
    [('h' :: 'i' :: [])] [(⟨0, some ('h' :: 'i' :: [])⟩ : APass)]
    (by simp)
    (by
      intro x hx
      rw [List.mem_singleton] at hx
      subst hx
      norm_num)
    (by
      intro x hx
      rw [List.mem_singleton] at hx
      subst hx
      decide)
    (by simp)
    (by
      intro s hs
      rw [List.mem_singleton] at hs
      subst hs
      decide)
    (by
      intro p hp
      rw [List.mem_singleton] at hp
      subst hp
      exact ⟨by norm_num, by simp⟩)
    (by decide)

/-- Formula of the C7 claim as written for interim ("partial") reports: the
accumulated final text, a single space, and the partial text, concatenated
and then trimmed. -/
def specInterimReport (acc p : Str) : Str := strip (acc ++ ' ' :: p)

/-- C7 counterexample: after the final segment `"a"`, an interim segment
`" b"` (carrying a leading space) is reported by the code as `"a b"` — the
partial is stripped before concatenation — whereas the claim's formula,
trimming only the concatenation `accumulated ++ " " ++ partial`, gives
`"a  b"` with an interior double space. -/
theorem C7_counterexample :
    (listenVosk 0 1 30
      [(⟨0, some (RecOut.finalSeg ('a' :: []))⟩ : Iter),
       (⟨0, some (RecOut.interim (' ' :: 'b' :: []))⟩ : Iter)])[1]? =
      some ('a' :: ' ' :: 'b' :: []) ∧
    specInterimReport ('a' :: []) (' ' :: 'b' :: []) =
      ('a' :: ' ' :: ' ' :: 'b' :: []) ∧
    ('a' :: ' ' :: 'b' :: []) ≠ ('a' :: ' ' :: ' ' :: 'b' :: []) := by
  have hd : ¬ ((30 : ℚ) < (0 : ℚ) - (0 : ℚ)) := by norm_num
  have hd0 : ¬ ((30 : ℚ) < (0 : ℚ)) := by norm_num
  have hs1 : strip ('a' :: []) = ('a' :: []) := by decide
  have hs2 : strip (' ' :: 'b' :: []) = ('b' :: []) := by decide
  have hs3 : strip (' ' :: 'a' :: []) = ('a' :: []) := by decide
  have hs4 : strip (' ' :: 'a' :: ' ' :: 'b' :: []) = ('a' :: ' ' :: 'b' :: []) := by decide
  refine ⟨?_, by decide, by decide⟩
  rw [listenVosk_eq]
  have hloop : voskLoop 0 1 30 ⟨[], 0⟩
      [(⟨0, some (RecOut.finalSeg ('a' :: []))⟩ : Iter),
       (⟨0, some (RecOut.interim (' ' :: 'b' :: []))⟩ : Iter)] =
      ⟨[('a' :: []), ('a' :: ' ' :: 'b' :: [])],
       ⟨(' ' :: 'a' :: []), 0⟩, false⟩ := by
    simp [voskLoop, hd, hd0, hs1, hs2, hs3, hs4]
  rw [hloop]
  simp [hs3]

/-- C7 amended: during capture, every final recognizer segment is trimmed
and, when non-whitespace, appended to the accumulated buffer separated by a
single space (the stripped buffer is the single-space join of the stripped
finals, with interim segments never persisted: the buffer depends on the
finals alone), while every non-whitespace interim segment is reported as
the trimmed concatenation of the accumulated final text, a single space,
and the trimmed interim text — the single-space join of the stripped
finals so far with the stripped interim appended. -/
theorem C7_finals_persisted_interims_reported
    (start silence maxD : ℚ) (its pre post : List Iter) (τ : ℚ) (p : Str)
    (hits : ∀ it ∈ its, liveIter start maxD it)
    (hpre : ∀ it ∈ pre, liveIter start maxD it)
    (hτ : τ - start ≤ maxD) (hp : strip p ≠ []) :
    ((voskLoop start silence maxD ⟨[], start⟩ its).st.ftext =
        preJoin (finalsOf its) ∧
      strip (voskLoop start silence maxD ⟨[], start⟩ its).st.ftext =
        sjoin (finalsOf its)) ∧
    ((voskLoop start silence maxD ⟨[], start⟩
        (pre ++ [(⟨τ, some (RecOut.interim p)⟩ : Iter)])).st.ftext =
      (voskLoop start silence maxD ⟨[], start⟩ pre).st.ftext) ∧
    (∃ tail, (voskLoop start silence maxD ⟨[], start⟩
        (pre ++ (⟨τ, some (RecOut.interim p)⟩ : Iter) :: post)).outs =
      (voskLoop start silence maxD ⟨[], start⟩ pre).outs ++
        sjoin (finalsOf pre ++ [strip p]) :: tail) := by
  have hITlive : liveIter start maxD (⟨τ, some (RecOut.interim p)⟩ : Iter) :=
    ⟨hτ, by simp⟩
  have hnd : ¬ (maxD < τ - start) := not_lt.mpr hτ
  obtain ⟨hbroke, hftext⟩ :=
    voskLoop_live start silence maxD pre ⟨[], start⟩ hpre
  have hftext2 : (voskLoop start silence maxD ⟨[], start⟩ pre).st.ftext =
      preJoin (finalsOf pre) := by rw [hftext]; rfl
  refine ⟨⟨?_, ?_⟩, ?_, ?_⟩
  · exact (voskLoop_live start silence maxD its ⟨[], start⟩ hits).2
  · rw [(voskLoop_live start silence maxD its ⟨[], start⟩ hits).2]
    show strip (preJoin (finalsOf its)) = _
    exact strip_preJoin (finalsOf its) (finalsOf_trimmed its)
  · have hall : ∀ it ∈ pre ++ [(⟨τ, some (RecOut.interim p)⟩ : Iter)],
        liveIter start maxD it := by
      intro it hit
      rcases List.mem_append.mp hit with h | h
      · exact hpre it h
      · rw [List.mem_singleton.mp h]
        exact hITlive
    have hall2 := (voskLoop_live start silence maxD _ ⟨[], start⟩ hall).2
    have hall3 : (voskLoop start silence maxD ⟨[], start⟩
        (pre ++ [(⟨τ, some (RecOut.interim p)⟩ : Iter)])).st.ftext =
        preJoin (finalsOf (pre ++ [(⟨τ, some (RecOut.interim p)⟩ : Iter)])) := by
      rw [hall2]; rfl
    rw [hall3, hftext2, finalsOf_append]
    have : finalsOf [(⟨τ, some (RecOut.interim p)⟩ : Iter)] = [] := rfl
    rw [this, List.append_nil]
  · rw [voskLoop_append start silence maxD pre
      ((⟨τ, some (RecOut.interim p)⟩ : Iter) :: post) ⟨[], start⟩ hbroke]
    have hstep : voskLoop start silence maxD
        (voskLoop start silence maxD ⟨[], start⟩ pre).st
        ((⟨τ, some (RecOut.interim p)⟩ : Iter) :: post) =
        ⟨strip ((voskLoop start silence maxD ⟨[], start⟩ pre).st.ftext ++
            ' ' :: strip p) ::
           (voskLoop start silence maxD
             ⟨(voskLoop start silence maxD ⟨[], start⟩ pre).st.ftext, τ⟩ post).outs,
         (voskLoop start silence maxD
           ⟨(voskLoop start silence maxD ⟨[], start⟩ pre).st.ftext, τ⟩ post).st,
         (voskLoop start silence maxD
           ⟨(voskLoop start silence maxD ⟨[], start⟩ pre).st.ftext, τ⟩ post).broke⟩ := by
      simp [voskLoop, hnd, hp]
    refine ⟨(voskLoop start silence maxD
        ⟨(voskLoop start silence maxD ⟨[], start⟩ pre).st.ftext, τ⟩ post).outs, ?_⟩
    rw [hstep, hftext2]
    have hpj : preJoin (finalsOf pre) ++ ' ' :: strip p =
        preJoin (finalsOf pre ++ [strip p]) := by
      rw [preJoin_append]
      simp [preJoin]
    have htr : ∀ u ∈ finalsOf pre ++ [strip p], trimmed u := by
      intro u hu
      rcases List.mem_append.mp hu with h | h
      · exact finalsOf_trimmed pre u h
      · rw [List.mem_singleton.mp h]
        exact trimmed_strip p hp
    rw [hpj, strip_preJoin (finalsOf pre ++ [strip p]) htr]

/-- Witness for the amended C7 with the final `"a"` then interim `" b"`. -/
theorem C7_finals_persisted_interims_reported_witness :
    ((voskLoop 0 1 30 ⟨[], 0⟩
        [(⟨0, some (RecOut.finalSeg ('a' :: []))⟩ : Iter)]).st.ftext =
        preJoin (finalsOf [(⟨0, some (RecOut.finalSeg ('a' :: []))⟩ : Iter)]) ∧
      strip (voskLoop 0 1 30 ⟨[], 0⟩
        [(⟨0, some (RecOut.finalSeg ('a' :: []))⟩ : Iter)]).st.ftext =
        sjoin (finalsOf [(⟨0, some (RecOut.finalSeg ('a' :: []))⟩ : Iter)])) ∧
    ((voskLoop 0 1 30 ⟨[], 0⟩
        ([(⟨0, some (RecOut.finalSeg ('a' :: []))⟩ : Iter)] ++
          [(⟨0, some (RecOut.interim (' ' :: 'b' :: []))⟩ : Iter)])).st.ftext =
      (voskLoop 0 1 30 ⟨[], 0⟩
        [(⟨0, some (RecOut.finalSeg ('a' :: []))⟩ : Iter)]).st.ftext) ∧
    (∃ tail, (voskLoop 0 1 30 ⟨[], 0⟩
        ([(⟨0, some (RecOut.finalSeg ('a' :: []))⟩ : Iter)] ++
          (⟨0, some (RecOut.interim (' ' :: 'b' :: []))⟩ : Iter) :: [])).outs =
      (voskLoop 0 1 30 ⟨[], 0⟩
        [(⟨0, some (RecOut.finalSeg ('a' :: []))⟩ : Iter)]).outs ++
        sjoin (finalsOf [(⟨0, some (RecOut.finalSeg ('a' :: []))⟩ : Iter)] ++
          [strip (' ' :: 'b' :: [])]) :: tail) :=
  C7_finals_persisted_interims_reported 0 1 30
    [(⟨0, some (RecOut.finalSeg ('a' :: []))⟩ : Iter)]
    [(⟨0, some (RecOut.finalSeg ('a' :: []))⟩ : Iter)]
    [] 0 (' ' :: 'b' :: [])
    (by
      intro it hit
      rw [List.mem_singleton] at hit
      subst hit
      exact ⟨by norm_num, by simp⟩)
    (by
      intro it hit
      rw [List.mem_singleton] at hit
      subst hit
      exact ⟨by norm_num, by simp⟩)
    (by norm_num)
    (by decide)

/-- Hypotheses emitted by a capture run fed the first `n` passes of an
unending pass stream. -/
def listenPrefix (start silence maxD : ℚ) (f : Nat → Iter) (n : Nat) : List Str :=
  listenVosk start silence maxD ((List.range n).map f)

theorem listenVosk_congr (start silence maxD : ℚ) (l1 l2 : List Iter)
    (h : voskLoop start silence maxD ⟨[], start⟩ l1 =
      voskLoop start silence maxD ⟨[], start⟩ l2) :
    listenVosk start silence maxD l1 = listenVosk start silence maxD l2 := by
  rw [listenVosk_eq, listenVosk_eq, h]

/-- C8: under any unending input pattern — including continuous non-silent
input that keeps the frame queue non-empty — as soon as the clock passes
`start + maxD` on some pass, the capture run terminates: its hypothesis
sequence stabilizes (is finite), and every pass before the terminating
deadline check is within `maxD` of capture start. -/
theorem C8_capture_terminates_by_deadline
    (start silence maxD : ℚ) (f : Nat → Iter)
    (h : ∃ i, maxD < (f i).now - start) :
    ∃ n, (∀ m, n ≤ m →
        listenPrefix start silence maxD f m = listenPrefix start silence maxD f n) ∧
      (∀ i, i + 1 < n → (f i).now - start ≤ maxD) := by
  have hdec : DecidablePred (fun i => maxD < (f i).now - start) := fun i => by
    infer_instance
  refine ⟨Nat.find h + 1, ?_, ?_⟩
  · have hbroke : ∀ m, Nat.find h + 1 ≤ m →
        (voskLoop start silence maxD ⟨[], start⟩ ((List.range m).map f)).broke = true := by
      intro m hm
      apply voskLoop_broke_of_deadline
      exact ⟨f (Nat.find h),
        List.mem_map_of_mem f (List.mem_range.mpr (by omega)), Nat.find_spec h⟩
    intro m hm
    obtain ⟨j, rfl⟩ := Nat.le.dest hm
    induction j with
    | zero => rfl
    | succ j ih =>
      have hstep : listenPrefix start silence maxD f (Nat.find h + 1 + (j + 1)) =
          listenPrefix start silence maxD f (Nat.find h + 1 + j) := by
        rw [show Nat.find h + 1 + (j + 1) = (Nat.find h + 1 + j) + 1 by omega]
        apply listenVosk_congr
        rw [List.range_succ, List.map_append]
        exact voskLoop_halt_append start silence maxD _ _ _
          (hbroke (Nat.find h + 1 + j) (by omega))
      rw [hstep]
      exact ih (by omega)
  · intro i hi
    have hmin : ¬ (maxD < (f i).now - start) := Nat.find_min h (by omega)
    exact not_lt.mp hmin

/-- Witness for C8 on a stream that delivers the final segment `"x"` on
every pass with the clock advancing one second per pass: with
`maxD = 3` the deadline is passed at pass 4. -/
theorem C8_capture_terminates_by_deadline_witness :
    ∃ n, (∀ m, n ≤ m →
        listenPrefix 0 1 3 (fun i => ⟨(i : ℚ), some (RecOut.finalSeg ('x' :: []))⟩) m =
        listenPrefix 0 1 3 (fun i => ⟨(i : ℚ), some (RecOut.finalSeg ('x' :: []))⟩) n) ∧
      (∀ i, i + 1 < n →
        ((fun i => (⟨(i : ℚ), some (RecOut.finalSeg ('x' :: []))⟩ : Iter)) i).now - 0 ≤ 3) :=
  C8_capture_terminates_by_deadline 0 1 3
    (fun i => ⟨(i : ℚ), some (RecOut.finalSeg ('x' :: []))⟩)
    ⟨4, by norm_num⟩
